import Mathlib

/-!
Verification development for the GenPool sharded object pool
(package pool, file pool.go at the current head).

The Go code is embedded shallowly and sequentially:
* Pooled objects are identified by natural-number ids.  The intrusive
  fields of Fields[T] (atomic usageCount int64, atomic next pointer) are
  a Node record; the whole object population is a Heap, a total function
  from ids to Node records.  int64 counters are modelled as Int with
  exact arithmetic (no two's-complement wrap: no claim in scope turns on
  counter overflow).
* Atomic loops (CompareAndSwap retry loops) are modelled by their
  single-iteration sequential effect: in a sequential execution the
  first CAS always succeeds.
* The user allocator is modelled as producing a fresh id whose Node
  fields are the Go zero value (usage 0, next nil); the user cleaner is
  modelled as an opaque external callback: the model records the id of
  each object passed to it (field cleaned of PoolState) and does not
  mutate the object, since the pool treats T as opaque.
* The package-global variable numShards is threaded explicitly as a
  parameter ns through the operations that read it, and is returned
  (possibly mutated) by construction, mirroring getShardCount.
* Goroutines, mutexes and condition variables are not modelled; the
  blocking path of GetBlock is split into its two sequential phases
  (the attempt that increments the blocked counter and suspends, and
  one wake-up iteration of the wait loop).
-/

namespace GenPool

/-- Intrusive per-object fields, Fields[T] in the source:
usageCount (atomic int64) and next (atomic pointer, nil = none). -/
structure Node where
  usage : Int
  next : Option Nat

/-- The population of pooled objects: ids to intrusive fields. -/
abbrev Heap := Nat → Node

/-- SetNext of Fields[T]: store a new next pointer of object i. -/
def setNext (h : Heap) (i : Nat) (v : Option Nat) : Heap :=
  fun j => if j = i then { h j with next := v } else h j

/-- ResetUsage of Fields[T]: store 0 into the usage counter of object i. -/
def resetUsage (h : Heap) (i : Nat) : Heap :=
  fun j => if j = i then { h j with usage := 0 } else h j

/-- IncrementUsage of Fields[T]: add 1 to the usage counter of object i. -/
def incUsage (h : Heap) (i : Nat) : Heap :=
  fun j => if j = i then { h j with usage := (h j).usage + 1 } else h j

/-- The list of ids reachable from pointer p by next links, ending in nil:
the shape of a well formed shard list. -/
def isChain (h : Heap) : Option Nat → List Nat → Prop
  | p, [] => p = none
  | p, a :: rest => p = some a ∧ isChain h (h a).next rest

/-- Consecutive next links are in place along the list; the next field of
the final element is unconstrained (a partially built kept list). -/
def linked (h : Heap) : List Nat → Prop
  | [] => True
  | [_] => True
  | a :: b :: rest => (h a).next = some b ∧ linked h (b :: rest)

/-- Every usage counter of the heap is non-negative (usage counters are
only ever incremented or reset to 0). -/
def UsageNonneg (h : Heap) : Prop := ∀ i, 0 ≤ (h i).usage

/-- CleanupPolicy of the source; Interval is a time.Duration (int64). -/
structure CleanupPolicy where
  enabled : Bool
  interval : Int
  minUsageCount : Int

/-- GrowthPolicy of the source. -/
structure GrowthPolicy where
  maxPoolSize : Int
  enable : Bool

/-- Config of the source.  The user callbacks are external: the model
only needs whether they are present (nil-ness), which is all the
validation logic reads. -/
structure Config where
  cleanup : CleanupPolicy
  growth : GrowthPolicy
  hasAllocator : Bool
  hasCleaner : Bool
  shardNumOverride : Int

/-- The construction-time errors of the source. -/
inductive PoolErr where
  | noAllocator
  | noCleaner
  | badCleanupInterval
  | badMinUsageCount
deriving DecidableEq

/-- validateConfig: allocator and cleaner must be present. -/
def validateConfig (cfg : Config) : Option PoolErr :=
  if cfg.hasAllocator = false then some PoolErr.noAllocator
  else if cfg.hasCleaner = false then some PoolErr.noCleaner
  else none

/-- validateCleanupConfig: interval and MinUsageCount strictly positive. -/
def validateCleanupConfig (cfg : Config) : Option PoolErr :=
  if cfg.cleanup.interval ≤ 0 then some PoolErr.badCleanupInterval
  else if cfg.cleanup.minUsageCount ≤ 0 then some PoolErr.badMinUsageCount
  else none

/-- getShardCount: a positive ShardNumOverride is written into the
package-global numShards (first component of the result is the count
used for the new pool, second is the new value of the global). -/
def getShardCount (cfg : Config) (ns : Nat) : Nat × Nat :=
  if 0 < cfg.shardNumOverride then
    (cfg.shardNumOverride.toNat, cfg.shardNumOverride.toNat)
  else (ns, ns)

/-- ShardedPool[T, P].  Shard heads are the first field of each Shard;
blocked is the blockedShards map (indexed by shard id); cleaned records
the ids passed to the user cleaner, in call order; allocCount counts
allocator invocations; stopClosed tracks whether the stopClean channel
has been closed. -/
structure PoolState where
  shards : List (Option Nat)
  heap : Heap
  currentLength : Int
  nextId : Nat
  allocCount : Nat
  cleaned : List Nat
  blocked : List Int
  cfg : Config
  stopClosed : Bool

/-- The pool built by NewPoolWithConfig after initShards: every head nil,
every blocked counter 0, length counter 0. -/
def initPool (cfg : Config) (count : Nat) : PoolState :=
  { shards := List.replicate count none
    heap := fun _ => { usage := 0, next := none }
    currentLength := 0
    nextId := 0
    allocCount := 0
    cleaned := []
    blocked := List.replicate count 0
    cfg := cfg
    stopClosed := false }

/-- NewPoolWithConfig.  Takes and returns the package-global numShards.
The background cleaner goroutine (startCleaner) is not modelled; its
ticks appear as explicit cleanup steps of the step relation. -/
def NewPoolWithConfig (cfg : Config) (ns : Nat) : Except PoolErr PoolState × Nat :=
  match validateConfig cfg with
  | some e => (Except.error e, ns)
  | none =>
    let sc := getShardCount cfg ns
    let p := initPool cfg sc.1
    if cfg.cleanup.enabled then
      match validateCleanupConfig cfg with
      | some e => (Except.error e, sc.2)
      | none => (Except.ok p, sc.2)
    else (Except.ok p, sc.2)

/-- getShard: the shard index for caller pid is pid % numShards, where
numShards is the package GLOBAL, not the length of the shard slice of
the pool the method is invoked on. -/
def getShardIdx (ns pid : Nat) : Nat := pid % ns

/-- retrieveFromShard: pop the head of shard idx.  Sequentially the CAS
succeeds on the first iteration.  The next field of the popped object is
NOT cleared. -/
def retrieveFromShard (s : PoolState) (idx : Nat) : Option Nat × PoolState :=
  match s.shards.getD idx none with
  | none => (none, s)
  | some objId =>
    let nxt := (s.heap objId).next
    (some objId, { s with shards := s.shards.set idx nxt })

/-- Get.  Pop from the caller shard; on success increment usage and
return.  Otherwise, if growth is disabled or currentLength is below
MaxPoolSize, invoke the allocator (fresh id, zero fields), increment its
usage, bump currentLength, and return it; else return nil. -/
def Get (ns pid : Nat) (s : PoolState) : Option Nat × PoolState :=
  let idx := getShardIdx ns pid
  match retrieveFromShard s idx with
  | (some obj, s1) => (some obj, { s1 with heap := incUsage s1.heap obj })
  | (none, s1) =>
    if s1.cfg.growth.enable = false ∨ s1.currentLength < s1.cfg.growth.maxPoolSize then
      let objId := s1.nextId
      let s2 := { s1 with
        heap := fun j => if j = objId then { usage := 0, next := none } else s1.heap j
        nextId := objId + 1
        allocCount := s1.allocCount + 1 }
      let s3 := { s2 with heap := incUsage s2.heap objId }
      (some objId, { s3 with currentLength := s3.currentLength + 1 })
    else (none, s1)

/-- Put.  Runs the cleaner on obj, then pushes obj on the caller shard.
The source order inside the successful loop iteration is: load old head,
CAS installing obj, and only then SetNext(oldHead) on obj. -/
def Put (ns pid obj : Nat) (s : PoolState) : PoolState :=
  let s0 := { s with cleaned := s.cleaned ++ [obj] }
  let idx := getShardIdx ns pid
  let oldHead := s0.shards.getD idx none
  let s1 := { s0 with shards := s0.shards.set idx (some obj) }
  { s1 with heap := setNext s1.heap obj oldHead }

/-- getMostBlockedShard: scan the blockedShards counters starting from
maxBlocked = -1 and keep the first strictly larger value.  Go map
iteration order is unspecified; the model scans in index order, so ties
keep the lowest index. -/
def mostBlockedAux : List Int → Nat → Option Nat → Int → Option Nat
  | [], _, best, _ => best
  | v :: rest, i, best, maxB =>
    if maxB < v then mostBlockedAux rest (i + 1) (some i) v
    else mostBlockedAux rest (i + 1) best maxB

/-- getMostBlockedShard over the blocked counters of the pool. -/
def getMostBlockedShard (blocked : List Int) : Option Nat :=
  mostBlockedAux blocked 0 none (-1)

/-- PutBlock: cleaner, then push onto the most blocked shard (same CAS
then SetNext order as Put), then Cond.Signal (no sequential effect).
A pool always has at least one shard, so the none branch of
getMostBlockedShard is unreachable in real executions. -/
def PutBlock (obj : Nat) (s : PoolState) : PoolState :=
  let s0 := { s with cleaned := s.cleaned ++ [obj] }
  match getMostBlockedShard s0.blocked with
  | none => s0
  | some idx =>
    let oldHead := s0.shards.getD idx none
    let s1 := { s0 with shards := s0.shards.set idx (some obj) }
    { s1 with heap := setNext s1.heap obj oldHead }

/-- Outcome of the first phase of GetBlock: either an object was
obtained without blocking, or the caller suspended after incrementing
the blocked counter of its shard. -/
inductive GetBlockResult where
  | immediate (obj : Nat) (s : PoolState)
  | suspended (s : PoolState)

/-- The pool state carried by a GetBlockResult. -/
def GetBlockResult.state : GetBlockResult → PoolState
  | .immediate _ s => s
  | .suspended s => s

/-- Whether the first phase of GetBlock suspended. -/
def GetBlockResult.isSuspended : GetBlockResult → Bool
  | .immediate _ _ => false
  | .suspended _ => true

/-- GetBlock, first phase: fast path pop, then the allocation attempt,
and otherwise blockedShards[shardID].Add(1) followed by suspension on
the shard condition variable. -/
def GetBlockTry (ns pid : Nat) (s : PoolState) : GetBlockResult :=
  let idx := getShardIdx ns pid
  match retrieveFromShard s idx with
  | (some obj, s1) => .immediate obj { s1 with heap := incUsage s1.heap obj }
  | (none, s1) =>
    if s1.cfg.growth.enable = false ∨ s1.currentLength < s1.cfg.growth.maxPoolSize then
      let objId := s1.nextId
      let s2 := { s1 with
        heap := fun j => if j = objId then { usage := 0, next := none } else s1.heap j
        nextId := objId + 1
        allocCount := s1.allocCount + 1 }
      let s3 := { s2 with heap := incUsage s2.heap objId }
      .immediate objId { s3 with currentLength := s3.currentLength + 1 }
    else
      .suspended { s1 with blocked := s1.blocked.set idx (s1.blocked.getD idx 0 + 1) }

/-- GetBlock, one wake-up iteration of the wait loop: retry the pop; on
success increment usage and return.  The source performs no decrement of
the blocked counter on this path. -/
def GetBlockResume (ns pid : Nat) (s : PoolState) : Option (Nat × PoolState) :=
  let idx := getShardIdx ns pid
  match retrieveFromShard s idx with
  | (some obj, s1) => some (obj, { s1 with heap := incUsage s1.heap obj })
  | (none, _) => none

/-- Result of filterUsableObjects: the mutated heap, the kept head, the
kept tail and the evicted count. -/
structure FilterRes where
  heap : Heap
  keptHead : Option Nat
  keptTail : Option Nat
  evicted : Nat

/-- The loop of filterUsableObjects.  Walks the detached list from
current; a node with usage at least MinUsageCount is reset and appended
to the kept list (SetNext on the previous kept tail), otherwise its next
is cleared and the evicted counter incremented.  The walk follows next
links captured before any mutation of the current node.  Fuel bounds the
walk; with fuel at least the list length the walk runs to completion (in
the source the walk terminates because shard lists are finite and
acyclic).  The none branch for the kept tail mirrors the nil deref that
cannot happen in the source (keptTail is non-nil whenever keptHead is). -/
def filterLoop (m : Int) : Nat → Heap → Option Nat → Option Nat → Option Nat → Nat → FilterRes
  | 0, h, _, kh, kt, ev => ⟨h, kh, kt, ev⟩
  | _ + 1, h, none, kh, kt, ev => ⟨h, kh, kt, ev⟩
  | fuel + 1, h, some c, kh, kt, ev =>
    let nxt := (h c).next
    let usage := (h c).usage
    if m ≤ usage then
      let h1 := resetUsage h c
      match kh with
      | none => filterLoop m fuel h1 nxt (some c) (some c) ev
      | some k0 =>
        let h2 := match kt with
          | some t => setNext h1 t (some c)
          | none => h1
        filterLoop m fuel h2 nxt (some k0) (some c) ev
    else
      filterLoop m fuel (setNext h c none) nxt kh kt (ev + 1)

/-- filterUsableObjects: run the filter walk from head and terminate the
kept list by storing nil into the next field of the kept tail; with no
kept node, return nil head and tail. -/
def filterUsableObjects (m : Int) (fuel : Nat) (h : Heap) (head : Option Nat) : FilterRes :=
  let r := filterLoop m fuel h head none none 0
  match r.keptHead, r.keptTail with
  | some _, some t => { r with heap := setNext r.heap t none }
  | _, _ => { r with keptHead := none, keptTail := none }

/-- tryTakeOwnership: load the shard head; on nil give up, otherwise CAS
it to nil and own the detached list (sequentially the CAS succeeds). -/
def tryTakeOwnership (s : PoolState) (idx : Nat) : Option Nat × PoolState :=
  match s.shards.getD idx none with
  | none => (none, s)
  | some head => (some head, { s with shards := s.shards.set idx none })

/-- reinsertKeptObjects: load the current head; if non-nil, point the
kept tail at it; CAS the head to the kept head (sequentially the head is
still nil after detachment, so the CAS succeeds at once). -/
def reinsertKeptObjects (s : PoolState) (idx kh kt : Nat) : PoolState :=
  let currentHead := s.shards.getD idx none
  let s1 := match currentHead with
    | some _ => { s with heap := setNext s.heap kt currentHead }
    | none => s
  { s1 with shards := s1.shards.set idx (some kh) }

/-- cleanupShard: detach the shard list, filter it, subtract the evicted
count from currentLength when positive, and reinsert the kept list when
non-empty.  The user cleaner is not invoked anywhere on this path. -/
def cleanupShard (s : PoolState) (idx fuel : Nat) : PoolState :=
  match tryTakeOwnership s idx with
  | (none, s0) => s0
  | (some head, s1) =>
    let r := filterUsableObjects s1.cfg.cleanup.minUsageCount fuel s1.heap (some head)
    let s2 := { s1 with heap := r.heap }
    let s3 := if 0 < r.evicted
      then { s2 with currentLength := s2.currentLength - (r.evicted : Int) }
      else s2
    match r.keptHead, r.keptTail with
    | some kh, some kt => reinsertKeptObjects s3 idx kh kt
    | _, _ => s3

/-- cleanup: nothing when the policy is disabled, otherwise one
cleanupShard pass over every shard in order. -/
def cleanup (s : PoolState) (fuel : Nat) : PoolState :=
  if s.cfg.cleanup.enabled then
    (List.range s.shards.length).foldl (fun acc i => cleanupShard acc i fuel) s
  else s

/-- The inner drain loop of clear on one detached list: clear the next
field of each node, invoke the cleaner on it, and count it.  Returns the
mutated heap, the extended cleaner log and the removed count. -/
def clearLoop : Nat → Heap → List Nat → Option Nat → Heap × List Nat × Nat
  | 0, h, cl, _ => (h, cl, 0)
  | _ + 1, h, cl, none => (h, cl, 0)
  | fuel + 1, h, cl, some c =>
    let nxt := (h c).next
    let r := clearLoop fuel (setNext h c none) (cl ++ [c]) nxt
    (r.1, r.2.1, r.2.2 + 1)

/-- One shard of clear: take the whole list with a CAS to nil
(sequentially at once), drain it, and subtract the removed count from
currentLength when positive. -/
def clearShard (s : PoolState) (idx fuel : Nat) : PoolState :=
  match s.shards.getD idx none with
  | none => s
  | some head =>
    let s1 := { s with shards := s.shards.set idx none }
    let r := clearLoop fuel s1.heap s1.cleaned (some head)
    let s2 := { s1 with heap := r.1, cleaned := r.2.1 }
    if 0 < r.2.2 then { s2 with currentLength := s2.currentLength - (r.2.2 : Int) }
    else s2

/-- clear: drain every shard in order. -/
def clear (s : PoolState) (fuel : Nat) : PoolState :=
  (List.range s.shards.length).foldl (fun acc i => clearShard acc i fuel) s

/-- Close.  Only when the cleanup policy is enabled: close the stopClean
channel (closing an already-closed channel faults, modelled as none),
join the cleaner goroutine, and clear the pool.  With cleanup disabled
Close does nothing at all. -/
def Close (s : PoolState) (fuel : Nat) : Option PoolState :=
  if s.cfg.cleanup.enabled then
    if s.stopClosed then none
    else some (clear { s with stopClosed := true } fuel)
  else some s

/-- The primitive memory events of one push (the loop body of Put and
PutBlock): the load of the shard head, the CompareAndSwap on the head,
and the store to the next field of the pushed object. -/
inductive PushStep where
  | loadHead : Option Nat → PushStep
  | casHead : Option Nat → Nat → Bool → PushStep
  | storeNext : Nat → Option Nat → PushStep

/-- The event sequence of the successful iteration of the push loop of
Put, transcribed from the source: oldHead := shard.Head.Load(); then
shard.Head.CompareAndSwap(oldHead, obj) succeeds; then, inside the
success branch, obj.SetNext(oldHead). -/
def putSuccessEvents (oldHead : Option Nat) (obj : Nat) : List PushStep :=
  [PushStep.loadHead oldHead,
   PushStep.casHead oldHead obj true,
   PushStep.storeNext obj oldHead]

/-- The event sequence of the successful iteration of the push loop of
PutBlock, transcribed from the source, which has the identical body:
load, successful CompareAndSwap, then SetNext in the success branch
(followed by Cond.Signal, which is not a memory event on the shard
list). -/
def putBlockSuccessEvents (oldHead : Option Nat) (obj : Nat) : List PushStep :=
  [PushStep.loadHead oldHead,
   PushStep.casHead oldHead obj true,
   PushStep.storeNext obj oldHead]

/-- Event predicate: a store to the next field of obj. -/
def isStoreNextTo (obj : Nat) : PushStep → Bool
  | .storeNext o _ => o == obj
  | _ => false

/-- Event predicate: a successful CAS installing obj as the head. -/
def isSuccessCasInstalling (obj : Nat) : PushStep → Bool
  | .casHead _ n ok => n == obj && ok
  | _ => false

/-- Whether some store to the next field of obj occurs strictly before a
successful CAS installing obj, in the given event sequence. -/
def storeBeforeSuccessCas (obj : Nat) : List PushStep → Bool
  | [] => false
  | e :: rest =>
    (isStoreNextTo obj e && rest.any (isSuccessCasInstalling obj)) ||
      storeBeforeSuccessCas obj rest

/-- One sequential step of the pool: any public operation, a tick of the
background cleaner, or a shutdown action.  The global numShards value ns
and the caller id pid are free in each step. -/
inductive Step : PoolState → PoolState → Prop where
  | get (ns pid : Nat) (s : PoolState) : Step s (Get ns pid s).2
  | put (ns pid obj : Nat) (s : PoolState) : Step s (Put ns pid obj s)
  | putBlock (obj : Nat) (s : PoolState) : Step s (PutBlock obj s)
  | getBlockTry (ns pid : Nat) (s : PoolState) : Step s (GetBlockTry ns pid s).state
  | getBlockResume (ns pid : Nat) (s s2 : PoolState) (obj : Nat) :
      GetBlockResume ns pid s = some (obj, s2) → Step s s2
  | cleanupTick (fuel : Nat) (s : PoolState) : Step s (cleanup s fuel)
  | clearAll (fuel : Nat) (s : PoolState) : Step s (clear s fuel)
  | closePool (fuel : Nat) (s s2 : PoolState) :
      Close s fuel = some s2 → Step s s2

/-- Pool states reachable from a successful construction by sequences of
steps. -/
inductive Reachable : PoolState → Prop where
  | init (cfg : Config) (ns : Nat) (p : PoolState) :
      (NewPoolWithConfig cfg ns).1 = Except.ok p → Reachable p
  | step (s s2 : PoolState) : Reachable s → Step s s2 → Reachable s2

/-! Concrete configurations and traces used by the counterexample
theorems.  Each pool is built with ShardNumOverride 1, so the global
shard count is 1 and every operation lands on shard 0. -/

/-- A valid config with cleanup and growth both disabled. -/
def cfgPlain : Config :=
  { cleanup := { enabled := false, interval := 0, minUsageCount := 0 }
    growth := { maxPoolSize := 0, enable := false }
    hasAllocator := true, hasCleaner := true, shardNumOverride := 1 }

/-- A valid config with cleanup enabled (interval 1, MinUsageCount 2)
and growth enabled with MaxPoolSize 1. -/
def cfgGrow1 : Config :=
  { cleanup := { enabled := true, interval := 1, minUsageCount := 2 }
    growth := { maxPoolSize := 1, enable := true }
    hasAllocator := true, hasCleaner := true, shardNumOverride := 1 }

/-- A valid config with cleanup enabled (interval 1, MinUsageCount 1)
and growth disabled. -/
def cfgClean : Config :=
  { cleanup := { enabled := true, interval := 1, minUsageCount := 1 }
    growth := { maxPoolSize := 0, enable := false }
    hasAllocator := true, hasCleaner := true, shardNumOverride := 1 }

/-- A valid config with cleanup disabled and growth enabled with
MaxPoolSize 1. -/
def cfgGrowB : Config :=
  { cleanup := { enabled := false, interval := 0, minUsageCount := 0 }
    growth := { maxPoolSize := 1, enable := true }
    hasAllocator := true, hasCleaner := true, shardNumOverride := 1 }

/-- A config whose growth policy is enabled with MaxPoolSize 0 (i.e.
not strictly positive), everything else valid. -/
def cfgBadGrow : Config :=
  { cleanup := { enabled := false, interval := 0, minUsageCount := 0 }
    growth := { maxPoolSize := 0, enable := true }
    hasAllocator := true, hasCleaner := true, shardNumOverride := 1 }

/-- Like cfgBadGrow (growth enabled, MaxPoolSize 0) but with the
cleanup policy ENABLED and validly configured (interval 1,
MinUsageCount 1). -/
def cfgBadGrowEn : Config :=
  { cleanup := { enabled := true, interval := 1, minUsageCount := 1 }
    growth := { maxPoolSize := 0, enable := true }
    hasAllocator := true, hasCleaner := true, shardNumOverride := 1 }

/-! Concrete operation traces used by the counterexample theorems. -/

/-- C3 trace: two allocations, both objects put back (0 then 1). -/
def d3s4 : PoolState :=
  Put 1 0 1 (Put 1 0 0 (Get 1 0 ((Get 1 0 (initPool cfgPlain 1)).2)).2)

/-- C4 trace: allocate the single allowed object, put it back, run one
cleanup pass (which evicts it, usage 1 < MinUsageCount 2). -/
def d4s3 : PoolState :=
  cleanup (Put 1 0 0 (Get 1 0 (initPool cfgGrow1 1)).2) 5

/-- C5 trace: allocate one object and put it back; cleanup is disabled. -/
def d5s2 : PoolState := Put 1 0 0 (Get 1 0 (initPool cfgPlain 1)).2

/-- C9 trace: the single allowed object is checked out, so a GetBlock
suspends after bumping the blocked counter of shard 0. -/
def d9s2 : PoolState := (GetBlockTry 1 0 (Get 1 0 (initPool cfgGrowB 1)).2).state

/-- A valid config with cleanup enabled (interval 1, MinUsageCount 2)
and growth disabled. -/
def cfgAggr : Config :=
  { cleanup := { enabled := true, interval := 1, minUsageCount := 2 }
    growth := { maxPoolSize := 0, enable := false }
    hasAllocator := true, hasCleaner := true, shardNumOverride := 1 }

/-- C2 witness trace on a single-shard pool: shard 0 holds the list
[1, 0] where object 1 has usage 2 (a full round trip after its first
use) and object 0 has usage 1. -/
def dC2 : PoolState :=
  Put 1 0 1 (Get 1 0 (Put 1 0 1 (Put 1 0 0
    (Get 1 0 (Get 1 0 (initPool cfgAggr 1)).2).2))).2

/-- C1.  In the implemented push (Put and PutBlock alike), the store of
the next field of the pushed object happens strictly AFTER the
successful CAS that publishes the object as the shard head, never
before: the event sequence of a successful push contains a successful
CAS installing obj and a store to the next field of obj, yet no such
store precedes the CAS.  This refutes the claimed order (store before
CAS) on every successful push. -/
theorem put_stores_next_only_after_cas (oldHead : Option Nat) (obj : Nat) :
    storeBeforeSuccessCas obj (putSuccessEvents oldHead obj) = false
    ∧ storeBeforeSuccessCas obj (putBlockSuccessEvents oldHead obj) = false
    ∧ (putSuccessEvents oldHead obj).any (isSuccessCasInstalling obj) = true
    ∧ (putSuccessEvents oldHead obj).any (isStoreNextTo obj) = true
    ∧ (putBlockSuccessEvents oldHead obj).any (isSuccessCasInstalling obj) = true
    ∧ (putBlockSuccessEvents oldHead obj).any (isStoreNextTo obj) = true := by
  simp [putSuccessEvents, putBlockSuccessEvents, storeBeforeSuccessCas,
    isStoreNextTo, isSuccessCasInstalling]

/-- C7 counterexample.  A config with allocator and cleaner present,
cleanup disabled, growth enabled and MaxPoolSize = 0 is accepted:
construction returns a pool and no error, contrary to the claim that it
fails with an invalid-configuration error. -/
theorem construction_accepts_nonpositive_max_pool_size :
    (NewPoolWithConfig cfgBadGrow 8).1 = Except.ok (initPool cfgBadGrow 1)
    ∧ cfgBadGrow.growth.enable = true ∧ cfgBadGrow.growth.maxPoolSize ≤ 0 := by
  refine ⟨rfl, rfl, by decide⟩

/-- C7 amended.  Construction never inspects the growth policy: whenever
the allocator and cleaner are present and the cleanup policy is either
disabled or validly configured (positive interval and MinUsageCount),
NewPoolWithConfig succeeds, whatever the growth policy says — in
particular with growth enabled and MaxPoolSize not strictly positive. -/
theorem construction_ignores_growth_policy (cfg : Config) (ns : Nat)
    (hA : cfg.hasAllocator = true) (hC : cfg.hasCleaner = true)
    (hcl : cfg.cleanup.enabled = false
      ∨ (0 < cfg.cleanup.interval ∧ 0 < cfg.cleanup.minUsageCount)) :
    (NewPoolWithConfig cfg ns).1
      = Except.ok (initPool cfg (getShardCount cfg ns).1) := by
  rcases hcl with hcl | ⟨h1, h2⟩
  · unfold NewPoolWithConfig validateConfig
    simp [hA, hC, hcl]
  · have hv : validateCleanupConfig cfg = none := by
      unfold validateCleanupConfig
      rw [if_neg (not_le.mpr h1), if_neg (not_le.mpr h2)]
    unfold NewPoolWithConfig validateConfig
    simp [hA, hC, hv]

/-- C7 witness: the amended theorem applied to cfgBadGrow (cleanup
disabled) and to cfgBadGrowEn (cleanup enabled and valid), both with
growth enabled and MaxPoolSize 0. -/
theorem construction_ignores_growth_policy_witness :
    (cfgBadGrow.hasAllocator = true ∧ cfgBadGrow.hasCleaner = true
      ∧ cfgBadGrow.cleanup.enabled = false
      ∧ cfgBadGrow.growth.enable = true ∧ cfgBadGrow.growth.maxPoolSize ≤ 0
      ∧ (NewPoolWithConfig cfgBadGrow 8).1
          = Except.ok (initPool cfgBadGrow (getShardCount cfgBadGrow 8).1))
    ∧ (cfgBadGrowEn.hasAllocator = true ∧ cfgBadGrowEn.hasCleaner = true
      ∧ cfgBadGrowEn.cleanup.enabled = true
      ∧ (0 : Int) < cfgBadGrowEn.cleanup.interval
      ∧ (0 : Int) < cfgBadGrowEn.cleanup.minUsageCount
      ∧ cfgBadGrowEn.growth.enable = true ∧ cfgBadGrowEn.growth.maxPoolSize ≤ 0
      ∧ (NewPoolWithConfig cfgBadGrowEn 8).1
          = Except.ok (initPool cfgBadGrowEn (getShardCount cfgBadGrowEn 8).1)) :=
  ⟨⟨rfl, rfl, rfl, rfl, by decide,
      construction_ignores_growth_policy cfgBadGrow 8 rfl rfl (Or.inl rfl)⟩,
    ⟨rfl, rfl, rfl, by decide, by decide, rfl, by decide,
      construction_ignores_growth_policy cfgBadGrowEn 8 rfl rfl
        (Or.inr ⟨by decide, by decide⟩)⟩⟩

/-- C10.  A positive ShardNumOverride is written into the package-global
numShards at construction: afterwards the global equals the override,
and since getShard of EVERY pool computes its index as pid % numShards
(the global, not the length of the shard slice of that pool), every
pool — including pools built earlier with a different shard count — now
selects its shard modulo the override. -/
theorem shard_override_overwrites_global (cfg : Config) (ns0 : Nat)
    (hov : 0 < cfg.shardNumOverride)
    (hA : cfg.hasAllocator = true) (hC : cfg.hasCleaner = true)
    (hcl : cfg.cleanup.enabled = false) :
    (NewPoolWithConfig cfg ns0).2 = cfg.shardNumOverride.toNat
    ∧ (∃ p : PoolState, (NewPoolWithConfig cfg ns0).1 = Except.ok p
        ∧ p.shards.length = cfg.shardNumOverride.toNat)
    ∧ ∀ pid : Nat,
        getShardIdx (NewPoolWithConfig cfg ns0).2 pid
          = pid % cfg.shardNumOverride.toNat := by
  unfold NewPoolWithConfig validateConfig getShardCount
  simp [hA, hC, hcl, hov, initPool, getShardIdx]

/-- C10 witness: constructing with override 3 while the global is 8. -/
theorem shard_override_overwrites_global_witness :
    (0:Int) <
        (Config.mk ⟨false, 0, 0⟩ ⟨0, false⟩ true true 3).shardNumOverride
    ∧ ((NewPoolWithConfig (Config.mk ⟨false, 0, 0⟩ ⟨0, false⟩ true true 3) 8).2
          = (Config.mk ⟨false, 0, 0⟩ ⟨0, false⟩ true true 3).shardNumOverride.toNat
        ∧ (∃ p : PoolState,
            (NewPoolWithConfig (Config.mk ⟨false, 0, 0⟩ ⟨0, false⟩ true true 3) 8).1
              = Except.ok p
            ∧ p.shards.length
              = (Config.mk ⟨false, 0, 0⟩ ⟨0, false⟩ true true 3).shardNumOverride.toNat)
        ∧ ∀ pid : Nat,
            getShardIdx
                (NewPoolWithConfig (Config.mk ⟨false, 0, 0⟩ ⟨0, false⟩ true true 3) 8).2 pid
              = pid % (Config.mk ⟨false, 0, 0⟩ ⟨0, false⟩ true true 3).shardNumOverride.toNat) :=
  ⟨by decide,
    shard_override_overwrites_global
      (Config.mk ⟨false, 0, 0⟩ ⟨0, false⟩ true true 3) 8 (by decide) rfl rfl rfl⟩

/-- C3 counterexample.  On a single-shard pool holding the list
[1 -> 0], Get returns object 1 whose next field still points at object
0: the popped next field is not cleared, refuting next == null on
return.  (The usage count is 2, consistent with the usage half of the
claim.) -/
theorem get_returns_object_with_nonnull_next :
    (NewPoolWithConfig cfgPlain 8).1 = Except.ok (initPool cfgPlain 1)
    ∧ (Get 1 0 d3s4).1 = some 1
    ∧ ((Get 1 0 d3s4).2.heap 1).next = some 0
    ∧ ((Get 1 0 d3s4).2.heap 1).usage = 2 := ⟨rfl, rfl, rfl, rfl⟩

/-- C4 counterexample.  Growth enabled with MaxPoolSize 1: after the
only object is evicted by a cleanup pass (decrementing currentLength to
0), a further Get invokes the allocator again, so 2 distinct objects are
created over the lifetime, refuting the at-most-k-allocations claim for
k = 1. -/
theorem allocations_exceed_max_pool_size :
    (NewPoolWithConfig cfgGrow1 8).1 = Except.ok (initPool cfgGrow1 1)
    ∧ cfgGrow1.growth.enable = true ∧ cfgGrow1.growth.maxPoolSize = 1
    ∧ d4s3.currentLength = 0
    ∧ (Get 1 0 d4s3).1 = some 1
    ∧ (Get 1 0 d4s3).2.allocCount = 2 := ⟨rfl, rfl, rfl, rfl, rfl, rfl⟩

/-- C5 counterexample.  With cleanup disabled, Close is a no-op: the
pool from the C5 trace has one resident object (head of shard 0 is
object 0, cleaned log [0] from the Put, currentLength 1), and Close
returns the state unchanged — the shard is not drained, the cleaner is
not invoked again, currentLength is not decremented. -/
theorem close_without_cleanup_drains_nothing :
    (NewPoolWithConfig cfgPlain 8).1 = Except.ok (initPool cfgPlain 1)
    ∧ cfgPlain.cleanup.enabled = false
    ∧ Close d5s2 5 = some d5s2
    ∧ d5s2.shards = [some 0]
    ∧ d5s2.cleaned = [0]
    ∧ d5s2.currentLength = 1 := ⟨rfl, rfl, rfl, rfl, rfl, rfl⟩

/-- C6 counterexample.  On a pool with cleanup enabled, the first Close
succeeds but the second Close faults (it closes the already-closed
stopClean channel, a runtime panic in Go, modelled as none): Close
called twice is not equivalent to Close called once and the second call
is not a no-op. -/
theorem close_twice_faults :
    (NewPoolWithConfig cfgClean 8).1 = Except.ok (initPool cfgClean 1)
    ∧ (Close (initPool cfgClean 1) 5).isSome = true
    ∧ (Close (initPool cfgClean 1) 5).bind (fun t => Close t 5) = none :=
  ⟨rfl, rfl, rfl⟩

/-- C9.  The blocked counter is never decremented: in the C9 trace a
GetBlock suspends (blocked counter of shard 0 becomes 1), a PutBlock
hands an object over, the blocked caller resumes and returns object 0 —
and the blocked counter of shard 0 is STILL 1 although no caller is
suspended any more.  This contradicts the claimed decrement on return
(and the source comment that blockedShards tracks how many goroutines
are blocked). -/
theorem blocked_counter_never_decremented :
    (NewPoolWithConfig cfgGrowB 8).1 = Except.ok (initPool cfgGrowB 1)
    ∧ (GetBlockTry 1 0 (Get 1 0 (initPool cfgGrowB 1)).2).isSuspended = true
    ∧ d9s2.blocked = [1]
    ∧ (GetBlockResume 1 0 (PutBlock 0 d9s2)).map (fun r => (r.1, r.2.blocked))
        = some (0, [1]) := ⟨rfl, rfl, rfl, rfl⟩

/-! Frame lemmas: which PoolState fields each operation leaves alone. -/

/-- cleanupShard changes neither cfg, stopClosed, cleaned, blocked,
allocCount nor nextId, and never increases currentLength. -/
theorem cleanupShard_frame (s : PoolState) (idx fuel : Nat) :
    (cleanupShard s idx fuel).cfg = s.cfg
    ∧ (cleanupShard s idx fuel).stopClosed = s.stopClosed
    ∧ (cleanupShard s idx fuel).cleaned = s.cleaned
    ∧ (cleanupShard s idx fuel).allocCount = s.allocCount
    ∧ (cleanupShard s idx fuel).currentLength ≤ s.currentLength := by
  unfold cleanupShard tryTakeOwnership reinsertKeptObjects
  rcases hh : s.shards.getD idx none with _ | head
  · simp
  · simp only []
    split <;> split <;> simp_all <;> split <;> simp_all

/-- clearShard changes neither cfg, stopClosed, blocked, allocCount nor
nextId, and never increases currentLength. -/
theorem clearShard_frame (s : PoolState) (idx fuel : Nat) :
    (clearShard s idx fuel).cfg = s.cfg
    ∧ (clearShard s idx fuel).stopClosed = s.stopClosed
    ∧ (clearShard s idx fuel).allocCount = s.allocCount
    ∧ (clearShard s idx fuel).currentLength ≤ s.currentLength := by
  unfold clearShard
  rcases hh : s.shards.getD idx none with _ | head
  · simp
  · simp only []
    split <;> simp_all

/-- Folding cleanupShard over any index list keeps the frame fields and
never increases currentLength. -/
theorem cleanup_fold_frame (fuel : Nat) (l : List Nat) :
    ∀ s : PoolState,
      ((l.foldl (fun acc i => cleanupShard acc i fuel) s).cfg = s.cfg
      ∧ (l.foldl (fun acc i => cleanupShard acc i fuel) s).stopClosed = s.stopClosed
      ∧ (l.foldl (fun acc i => cleanupShard acc i fuel) s).cleaned = s.cleaned
      ∧ (l.foldl (fun acc i => cleanupShard acc i fuel) s).allocCount = s.allocCount
      ∧ (l.foldl (fun acc i => cleanupShard acc i fuel) s).currentLength
          ≤ s.currentLength) := by
  induction l with
  | nil => intro s; simp
  | cons i rest ih =>
    intro s
    have h1 := cleanupShard_frame s i fuel
    have h2 := ih (cleanupShard s i fuel)
    refine ⟨?_, ?_, ?_, ?_, ?_⟩ <;>
      simp only [List.foldl_cons] <;>
      first
        | (rw [h2.1, h1.1])
        | (rw [h2.2.1, h1.2.1])
        | (rw [h2.2.2.1, h1.2.2.1])
        | (rw [h2.2.2.2.1, h1.2.2.2.1])
        | exact le_trans h2.2.2.2.2 h1.2.2.2.2

/-- Folding clearShard over any index list keeps the frame fields and
never increases currentLength. -/
theorem clear_fold_frame (fuel : Nat) (l : List Nat) :
    ∀ s : PoolState,
      ((l.foldl (fun acc i => clearShard acc i fuel) s).cfg = s.cfg
      ∧ (l.foldl (fun acc i => clearShard acc i fuel) s).stopClosed = s.stopClosed
      ∧ (l.foldl (fun acc i => clearShard acc i fuel) s).allocCount = s.allocCount
      ∧ (l.foldl (fun acc i => clearShard acc i fuel) s).currentLength
          ≤ s.currentLength) := by
  induction l with
  | nil => intro s; simp
  | cons i rest ih =>
    intro s
    have h1 := clearShard_frame s i fuel
    have h2 := ih (clearShard s i fuel)
    refine ⟨?_, ?_, ?_, ?_⟩ <;>
      simp only [List.foldl_cons] <;>
      first
        | (rw [h2.1, h1.1])
        | (rw [h2.2.1, h1.2.1])
        | (rw [h2.2.2.1, h1.2.2.1])
        | exact le_trans h2.2.2.2 h1.2.2.2

/-- cleanup keeps cfg, stopClosed, cleaned and allocCount, and never
increases currentLength. -/
theorem cleanup_frame (s : PoolState) (fuel : Nat) :
    (cleanup s fuel).cfg = s.cfg
    ∧ (cleanup s fuel).stopClosed = s.stopClosed
    ∧ (cleanup s fuel).cleaned = s.cleaned
    ∧ (cleanup s fuel).allocCount = s.allocCount
    ∧ (cleanup s fuel).currentLength ≤ s.currentLength := by
  unfold cleanup
  split
  · exact cleanup_fold_frame fuel (List.range s.shards.length) s
  · simp

/-- clear keeps cfg, stopClosed and allocCount, and never increases
currentLength. -/
theorem clear_frame (s : PoolState) (fuel : Nat) :
    (clear s fuel).cfg = s.cfg
    ∧ (clear s fuel).stopClosed = s.stopClosed
    ∧ (clear s fuel).allocCount = s.allocCount
    ∧ (clear s fuel).currentLength ≤ s.currentLength :=
  clear_fold_frame fuel (List.range s.shards.length) s

/-- A successful construction yields exactly the initPool state for the
count chosen by getShardCount. -/
theorem newPool_ok_shape (cfg : Config) (ns : Nat) (p : PoolState)
    (h : (NewPoolWithConfig cfg ns).1 = Except.ok p) :
    p = initPool cfg (getShardCount cfg ns).1 := by
  unfold NewPoolWithConfig at h
  rcases hv : validateConfig cfg with _ | e
  · rw [hv] at h
    simp only [] at h
    split at h
    · split at h
      · cases h
      · cases h; rfl
    · cases h; rfl
  · rw [hv] at h
    cases h

/-- Get preserves the configuration. -/
theorem Get_cfg (ns pid : Nat) (s : PoolState) : (Get ns pid s).2.cfg = s.cfg := by
  unfold Get retrieveFromShard getShardIdx
  rcases hh : s.shards[pid % ns]?.getD none with _ | obj <;> simp [hh]
  split <;> simp

/-- The effect of Get on currentLength: unchanged, or incremented under
the growth gate. -/
theorem Get_len (ns pid : Nat) (s : PoolState) :
    (Get ns pid s).2.currentLength = s.currentLength
    ∨ ((s.cfg.growth.enable = false ∨ s.currentLength < s.cfg.growth.maxPoolSize)
        ∧ (Get ns pid s).2.currentLength = s.currentLength + 1) := by
  unfold Get retrieveFromShard getShardIdx
  rcases hh : s.shards[pid % ns]?.getD none with _ | obj <;> simp [hh]
  split
  · rename_i hc
    right
    simpa using hc
  · left
    simp

/-- Put preserves configuration and currentLength. -/
theorem Put_frame (ns pid obj : Nat) (s : PoolState) :
    (Put ns pid obj s).cfg = s.cfg
    ∧ (Put ns pid obj s).currentLength = s.currentLength := ⟨rfl, rfl⟩

/-- PutBlock preserves the configuration. -/
theorem PutBlock_cfg (obj : Nat) (s : PoolState) :
    (PutBlock obj s).cfg = s.cfg := by
  unfold PutBlock
  rcases hm : getMostBlockedShard s.blocked with _ | idx <;> simp [hm]

/-- PutBlock preserves currentLength. -/
theorem PutBlock_len (obj : Nat) (s : PoolState) :
    (PutBlock obj s).currentLength = s.currentLength := by
  unfold PutBlock
  rcases hm : getMostBlockedShard s.blocked with _ | idx <;> simp [hm]

/-- The first phase of GetBlock preserves the configuration. -/
theorem GetBlockTry_cfg (ns pid : Nat) (s : PoolState) :
    (GetBlockTry ns pid s).state.cfg = s.cfg := by
  unfold GetBlockTry retrieveFromShard getShardIdx
  rcases hh : s.shards[pid % ns]?.getD none with _ | obj
  · simp only [List.getD_eq_getElem?_getD, hh]
    split <;> rfl
  · simp only [List.getD_eq_getElem?_getD, hh]
    rfl

/-- The effect of the first phase of GetBlock on currentLength:
unchanged, or incremented under the growth gate. -/
theorem GetBlockTry_len (ns pid : Nat) (s : PoolState) :
    (GetBlockTry ns pid s).state.currentLength = s.currentLength
    ∨ ((s.cfg.growth.enable = false ∨ s.currentLength < s.cfg.growth.maxPoolSize)
        ∧ (GetBlockTry ns pid s).state.currentLength = s.currentLength + 1) := by
  unfold GetBlockTry retrieveFromShard getShardIdx
  rcases hh : s.shards[pid % ns]?.getD none with _ | obj
  · simp only [List.getD_eq_getElem?_getD, hh]
    split
    · rename_i hc
      exact Or.inr ⟨hc, rfl⟩
    · exact Or.inl rfl
  · simp only [List.getD_eq_getElem?_getD, hh]
    exact Or.inl rfl

/-- A successful resume of GetBlock pops an object: configuration and
currentLength are untouched. -/
theorem GetBlockResume_frame (ns pid : Nat) (s s2 : PoolState) (obj : Nat)
    (heq : GetBlockResume ns pid s = some (obj, s2)) :
    s2.cfg = s.cfg ∧ s2.currentLength = s.currentLength := by
  unfold GetBlockResume retrieveFromShard getShardIdx at heq
  rcases hh : s.shards[pid % ns]?.getD none with _ | o <;> simp [hh] at heq
  rw [← heq.2]
  exact ⟨rfl, rfl⟩

/-- The two possible shapes of a successful Close. -/
theorem Close_shape (s s2 : PoolState) (fuel : Nat)
    (heq : Close s fuel = some s2) :
    (s.cfg.cleanup.enabled = false ∧ s2 = s)
    ∨ (s.cfg.cleanup.enabled = true ∧ s.stopClosed = false
        ∧ s2 = clear { s with stopClosed := true } fuel) := by
  unfold Close at heq
  rcases he : s.cfg.cleanup.enabled <;> rw [he] at heq <;> simp at heq
  · left
    exact ⟨rfl, heq.symm⟩
  · right
    rcases hst : s.stopClosed <;> rw [hst] at heq <;> simp at heq
    exact ⟨rfl, rfl, heq.symm⟩

/-- Each sequential step preserves the configuration and, when growth is
enabled, keeps currentLength below the MaxPoolSize bound. -/
theorem step_growth_bound (s s2 : PoolState) (hs : Step s s2)
    (h : s.cfg.growth.enable = true →
      s.currentLength ≤ max s.cfg.growth.maxPoolSize 0) :
    s2.cfg = s.cfg
    ∧ (s2.cfg.growth.enable = true →
        s2.currentLength ≤ max s2.cfg.growth.maxPoolSize 0) := by
  cases hs with
  | get ns pid s =>
    refine ⟨Get_cfg ns pid s, fun hen => ?_⟩
    rw [Get_cfg ns pid s] at hen ⊢
    rcases Get_len ns pid s with hl | ⟨hc | hc, hl⟩
    · rw [hl]; exact h hen
    · rw [hen] at hc; cases hc
    · rw [hl]; exact le_trans (Int.add_one_le_iff.mpr hc) (le_max_left _ _)
  | put ns pid obj s =>
    refine ⟨(Put_frame ns pid obj s).1, fun hen => ?_⟩
    rw [(Put_frame ns pid obj s).1] at hen ⊢
    rw [(Put_frame ns pid obj s).2]
    exact h hen
  | putBlock obj s =>
    refine ⟨PutBlock_cfg obj s, fun hen => ?_⟩
    rw [PutBlock_cfg obj s] at hen ⊢
    rw [PutBlock_len obj s]
    exact h hen
  | getBlockTry ns pid s =>
    refine ⟨GetBlockTry_cfg ns pid s, fun hen => ?_⟩
    rw [GetBlockTry_cfg ns pid s] at hen ⊢
    rcases GetBlockTry_len ns pid s with hl | ⟨hc | hc, hl⟩
    · rw [hl]; exact h hen
    · rw [hen] at hc; cases hc
    · rw [hl]; exact le_trans (Int.add_one_le_iff.mpr hc) (le_max_left _ _)
  | getBlockResume ns pid s s2 obj heq =>
    obtain ⟨h1, h2⟩ := GetBlockResume_frame ns pid s s2 obj heq
    refine ⟨h1, fun hen => ?_⟩
    rw [h1] at hen ⊢
    rw [h2]
    exact h hen
  | cleanupTick fuel s =>
    have hf := cleanup_frame s fuel
    refine ⟨hf.1, fun hen => ?_⟩
    rw [hf.1] at hen ⊢
    exact le_trans hf.2.2.2.2 (h hen)
  | clearAll fuel s =>
    have hf := clear_frame s fuel
    refine ⟨hf.1, fun hen => ?_⟩
    rw [hf.1] at hen ⊢
    exact le_trans hf.2.2.2 (h hen)
  | closePool fuel s s2 heq =>
    rcases Close_shape s s2 fuel heq with ⟨_, hs2⟩ | ⟨_, _, hs2⟩
    · subst hs2
      exact ⟨rfl, h⟩
    · have hf := clear_frame { s with stopClosed := true } fuel
      subst hs2
      refine ⟨hf.1, fun hen => ?_⟩
      rw [hf.1] at hen ⊢
      exact le_trans hf.2.2.2 (h hen)

/-- C4 amended.  In every state reachable from construction by Get, Put,
PutBlock, GetBlock, cleanup ticks, clear and Close, if growth is enabled
then currentLength never exceeds max(MaxPoolSize, 0): at most
MaxPoolSize objects are accounted for simultaneously.  (The lifetime
total of allocations is NOT bounded by MaxPoolSize, as the C4
counterexample shows.) -/
theorem current_length_bounded (s : PoolState) (h : Reachable s)
    (hen : s.cfg.growth.enable = true) :
    s.currentLength ≤ max s.cfg.growth.maxPoolSize 0 := by
  revert hen
  induction h with
  | init cfg ns p hp =>
    intro _
    rw [newPool_ok_shape cfg ns p hp]
    exact le_max_right _ _
  | step s s2 _ hstep ih => exact (step_growth_bound s s2 hstep ih).2

/-- C4 witness: the bound at a freshly built growth-limited pool. -/
theorem current_length_bounded_witness :
    Reachable (initPool cfgGrow1 1)
    ∧ (initPool cfgGrow1 1).cfg.growth.enable = true
    ∧ (initPool cfgGrow1 1).currentLength
        ≤ max (initPool cfgGrow1 1).cfg.growth.maxPoolSize 0 :=
  ⟨Reachable.init cfgGrow1 8 (initPool cfgGrow1 1) rfl, rfl,
    current_length_bounded (initPool cfgGrow1 1)
      (Reachable.init cfgGrow1 8 (initPool cfgGrow1 1) rfl) rfl⟩

/-- The usage field is untouched by setNext. -/
theorem usage_setNext (h : Heap) (i : Nat) (v : Option Nat) (j : Nat) :
    ((setNext h i v) j).usage = (h j).usage := by
  unfold setNext
  by_cases hj : j = i <;> simp [hj]

/-- C8.  On a single-shard pool (global shard count 1), Put of a held
object obj followed by Get returns the very same object, and its usage
count across the round trip grows by exactly one (Put leaves the usage
count alone; Get increments it once). -/
theorem put_then_get_roundtrip (s : PoolState) (obj pid1 pid2 : Nat)
    (hlen : s.shards.length = 1) :
    (Get 1 pid2 (Put 1 pid1 obj s)).1 = some obj
    ∧ ((Get 1 pid2 (Put 1 pid1 obj s)).2.heap obj).usage
        = (s.heap obj).usage + 1 := by
  obtain ⟨x, hx⟩ := List.length_eq_one.mp hlen
  unfold Get Put retrieveFromShard getShardIdx
  simp [hx, Nat.mod_one, incUsage, usage_setNext]

/-- C6 amended.  Close is idempotent exactly when the cleanup policy is
disabled: with cleanup disabled Close is a no-op (so any number of calls
equals one call); with cleanup enabled and the stop channel not yet
closed, the first Close succeeds and a second Close on its result faults
(closing an already-closed channel). -/
theorem close_idempotent_iff_cleanup_disabled (s : PoolState) (fuel : Nat) :
    (s.cfg.cleanup.enabled = false → Close s fuel = some s)
    ∧ (s.cfg.cleanup.enabled = true → s.stopClosed = false →
        ∃ s2, Close s fuel = some s2 ∧ Close s2 fuel = none) := by
  constructor
  · intro h
    unfold Close
    simp [h]
  · intro h hst
    refine ⟨clear { s with stopClosed := true } fuel, ?_, ?_⟩
    · unfold Close
      simp [h, hst]
    · have h1 := clear_frame { s with stopClosed := true } fuel
      unfold Close
      rw [h1.1, h1.2.1]
      simp [h]

/-- C6 witness: both halves at concrete pools (cfgPlain has cleanup
disabled, cfgClean has it enabled). -/
theorem close_idempotent_iff_cleanup_disabled_witness :
    ((initPool cfgPlain 1).cfg.cleanup.enabled = false
      ∧ Close (initPool cfgPlain 1) 5 = some (initPool cfgPlain 1))
    ∧ ((initPool cfgClean 1).cfg.cleanup.enabled = true
      ∧ (initPool cfgClean 1).stopClosed = false
      ∧ ∃ s2, Close (initPool cfgClean 1) 5 = some s2 ∧ Close s2 5 = none) :=
  ⟨⟨rfl, (close_idempotent_iff_cleanup_disabled (initPool cfgPlain 1) 5).1 rfl⟩,
    ⟨rfl, rfl,
      (close_idempotent_iff_cleanup_disabled (initPool cfgClean 1) 5).2 rfl rfl⟩⟩

/-- C8 witness: round trip of object 5 through a fresh single-shard
pool. -/
theorem put_then_get_roundtrip_witness :
    (initPool cfgPlain 1).shards.length = 1
    ∧ ((Get 1 0 (Put 1 0 5 (initPool cfgPlain 1))).1 = some 5
      ∧ ((Get 1 0 (Put 1 0 5 (initPool cfgPlain 1))).2.heap 5).usage
          = ((initPool cfgPlain 1).heap 5).usage + 1) :=
  ⟨rfl, put_then_get_roundtrip (initPool cfgPlain 1) 5 0 0 rfl⟩

/-! Non-negativity of usage counters across all operations. -/

/-- Pointwise heap updates preserve non-negative usage counters. -/
theorem un_update (h : Heap) (hun : UsageNonneg h) (i : Nat) (v : Option Nat) :
    UsageNonneg (setNext h i v)
    ∧ UsageNonneg (resetUsage h i)
    ∧ UsageNonneg (incUsage h i)
    ∧ UsageNonneg (fun j => if j = i then { usage := 0, next := none } else h j) := by
  refine ⟨fun j => ?_, fun j => ?_, fun j => ?_, fun j => ?_⟩
  · simp only [setNext]
    by_cases hj : j = i
    · simp only [hj, if_pos rfl]
      exact hun i
    · simp only [if_neg hj]
      exact hun j
  · simp only [resetUsage]
    by_cases hj : j = i
    · simp [hj]
    · simp only [if_neg hj]
      exact hun j
  · simp only [incUsage]
    by_cases hj : j = i
    · subst hj
      have he : (if j = j then { usage := (h j).usage + 1, next := (h j).next } else h j).usage
          = (h j).usage + 1 := by simp
      rw [he]
      have := hun j
      omega
    · simp only [if_neg hj]
      exact hun j
  · by_cases hj : j = i
    · simp [hj]
    · simp only [if_neg hj]
      exact hun j

/-- The filter loop preserves non-negative usage counters. -/
theorem un_filterLoop (m : Int) :
    ∀ (fuel : Nat) (h : Heap) (cur kh kt : Option Nat) (ev : Nat),
      UsageNonneg h → UsageNonneg (filterLoop m fuel h cur kh kt ev).heap := by
  intro fuel
  induction fuel with
  | zero => intro h cur kh kt ev hun; exact hun
  | succ fuel ih =>
    intro h cur kh kt ev hun
    rcases cur with _ | c
    · exact hun
    · rcases kh with _ | k0 <;> rcases kt with _ | t <;>
        simp only [filterLoop] <;> split <;>
        first
          | exact ih _ _ _ _ _ ((un_update h hun c none).2.1)
          | exact ih _ _ _ _ _
              ((un_update _ ((un_update h hun c none).2.1) t (some c)).1)
          | exact ih _ _ _ _ _ ((un_update h hun c none).1)

/-- filterUsableObjects preserves non-negative usage counters. -/
theorem un_filter (m : Int) (fuel : Nat) (h : Heap) (head : Option Nat)
    (hun : UsageNonneg h) :
    UsageNonneg (filterUsableObjects m fuel h head).heap := by
  have h1 := un_filterLoop m fuel h head none none 0 hun
  rcases hk : (filterLoop m fuel h head none none 0).keptHead with _ | k <;>
    rcases ht : (filterLoop m fuel h head none none 0).keptTail with _ | t <;>
    simp only [filterUsableObjects, hk, ht] <;>
    first
      | exact h1
      | exact (un_update _ h1 t none).1

/-- The clear loop preserves non-negative usage counters. -/
theorem un_clearLoop :
    ∀ (fuel : Nat) (h : Heap) (cl : List Nat) (cur : Option Nat),
      UsageNonneg h → UsageNonneg (clearLoop fuel h cl cur).1 := by
  intro fuel
  induction fuel with
  | zero => intro h cl cur hun; exact hun
  | succ fuel ih =>
    intro h cl cur hun
    rcases cur with _ | c
    · exact hun
    · simp only [clearLoop]
      exact ih _ _ _ ((un_update h hun c none).1)

/-- cleanupShard preserves non-negative usage counters. -/
theorem un_cleanupShard (s : PoolState) (idx fuel : Nat)
    (hun : UsageNonneg s.heap) : UsageNonneg (cleanupShard s idx fuel).heap := by
  unfold cleanupShard tryTakeOwnership reinsertKeptObjects
  rcases hh : s.shards.getD idx none with _ | head
  · exact hun
  · simp only []
    have h1 := un_filter s.cfg.cleanup.minUsageCount fuel s.heap (some head) hun
    split <;> split <;> simp_all <;> split <;>
      first
        | exact (un_update _ h1 _ _).1
        | simp_all

/-- clearShard preserves non-negative usage counters. -/
theorem un_clearShard (s : PoolState) (idx fuel : Nat)
    (hun : UsageNonneg s.heap) : UsageNonneg (clearShard s idx fuel).heap := by
  unfold clearShard
  rcases hh : s.shards.getD idx none with _ | head
  · exact hun
  · simp only []
    have h1 := un_clearLoop fuel s.heap s.cleaned (some head) hun
    split <;> simp_all

/-- Folding a heap-usage-preserving shard pass preserves non-negative
usage counters: cleanup version. -/
theorem un_cleanup_fold (fuel : Nat) (l : List Nat) :
    ∀ s : PoolState, UsageNonneg s.heap →
      UsageNonneg ((l.foldl (fun acc i => cleanupShard acc i fuel) s).heap) := by
  induction l with
  | nil => intro s hun; exact hun
  | cons i rest ih =>
    intro s hun
    exact ih (cleanupShard s i fuel) (un_cleanupShard s i fuel hun)

/-- Folding clearShard preserves non-negative usage counters. -/
theorem un_clear_fold (fuel : Nat) (l : List Nat) :
    ∀ s : PoolState, UsageNonneg s.heap →
      UsageNonneg ((l.foldl (fun acc i => clearShard acc i fuel) s).heap) := by
  induction l with
  | nil => intro s hun; exact hun
  | cons i rest ih =>
    intro s hun
    exact ih (clearShard s i fuel) (un_clearShard s i fuel hun)

/-- Every sequential step preserves non-negative usage counters. -/
theorem un_step (s s2 : PoolState) (hs : Step s s2)
    (hun : UsageNonneg s.heap) : UsageNonneg s2.heap := by
  cases hs with
  | get ns pid s =>
    unfold Get retrieveFromShard getShardIdx
    rcases hh : s.shards[pid % ns]?.getD none with _ | obj <;>
      simp only [List.getD_eq_getElem?_getD, hh]
    · split
      · exact (un_update _ ((un_update _ hun s.nextId none).2.2.2) s.nextId none).2.2.1
      · exact hun
    · exact (un_update _ hun obj none).2.2.1
  | put ns pid obj s =>
    unfold Put
    exact (un_update _ hun obj _).1
  | putBlock obj s =>
    unfold PutBlock
    rcases hm : getMostBlockedShard s.blocked with _ | idx <;> simp [hm]
    · exact hun
    · exact (un_update _ hun obj _).1
  | getBlockTry ns pid s =>
    unfold GetBlockTry retrieveFromShard getShardIdx
    rcases hh : s.shards[pid % ns]?.getD none with _ | obj <;>
      simp only [List.getD_eq_getElem?_getD, hh]
    · split
      · exact (un_update _ ((un_update _ hun s.nextId none).2.2.2) s.nextId none).2.2.1
      · exact hun
    · exact (un_update _ hun obj none).2.2.1
  | getBlockResume ns pid s s2 obj heq =>
    unfold GetBlockResume retrieveFromShard getShardIdx at heq
    rcases hh : s.shards[pid % ns]?.getD none with _ | o <;> simp [hh] at heq
    rw [← heq.2]
    exact (un_update _ hun o none).2.2.1
  | cleanupTick fuel s =>
    unfold cleanup
    split
    · exact un_cleanup_fold fuel (List.range s.shards.length) s hun
    · exact hun
  | clearAll fuel s =>
    exact un_clear_fold fuel (List.range s.shards.length) s hun
  | closePool fuel s s2 heq =>
    rcases Close_shape s s2 fuel heq with ⟨_, hs2⟩ | ⟨_, _, hs2⟩
    · subst hs2; exact hun
    · subst hs2
      exact un_clear_fold fuel _ { s with stopClosed := true } hun

/-- Every reachable pool state has non-negative usage counters. -/
theorem reachable_usage_nonneg (s : PoolState) (h : Reachable s) :
    UsageNonneg s.heap := by
  induction h with
  | init cfg ns p hp =>
    rw [newPool_ok_shape cfg ns p hp]
    intro i
    simp [initPool]
  | step s s2 _ hstep ih => exact un_step s s2 hstep ih

/-- C3 amended.  Any object returned by Get has usage count at least 1
at the moment of return.  A freshly allocated object (taken when the
caller shard was empty) additionally has a nil next field; an object
popped from the shard is returned with its next field UNCHANGED — the
pop path never clears it. -/
theorem get_usage_positive_next_unchanged (ns pid : Nat) (s : PoolState)
    (obj : Nat) (hreach : Reachable s)
    (hret : (Get ns pid s).1 = some obj) :
    1 ≤ ((Get ns pid s).2.heap obj).usage
    ∧ (s.shards.getD (getShardIdx ns pid) none = none →
        ((Get ns pid s).2.heap obj).next = none)
    ∧ (∀ o : Nat, s.shards.getD (getShardIdx ns pid) none = some o →
        obj = o ∧ ((Get ns pid s).2.heap obj).next = (s.heap o).next) := by
  have hun := reachable_usage_nonneg s hreach
  unfold Get retrieveFromShard getShardIdx at hret ⊢
  rcases hh : s.shards[pid % ns]?.getD none with _ | o <;>
    simp only [List.getD_eq_getElem?_getD, hh] at hret ⊢
  · by_cases hcond : s.cfg.growth.enable = false
        ∨ s.currentLength < s.cfg.growth.maxPoolSize
    · rw [if_pos hcond] at hret ⊢
      simp only [Option.some.injEq] at hret
      subst hret
      refine ⟨?_, ?_, ?_⟩
      · simp [incUsage]
      · intro _
        simp [incUsage]
      · intro o2 ho2
        exact Option.noConfusion ho2
    · rw [if_neg hcond] at hret
      exact Option.noConfusion hret
  · simp only [Option.some.injEq] at hret
    subst hret
    refine ⟨?_, ?_, ?_⟩
    · have he : ((incUsage s.heap o) o).usage = (s.heap o).usage + 1 := by
        simp [incUsage]
      rw [he]
      have := hun o
      omega
    · intro hno
      exact Option.noConfusion hno
    · intro o2 ho2
      have h3 : o = o2 := Option.some.inj ho2
      subst h3
      exact ⟨rfl, by simp [incUsage]⟩

/-- C3 amended witness: Get on a fresh single-shard pool allocates
object 0 with usage 1 and nil next. -/
theorem get_usage_positive_next_unchanged_witness :
    Reachable (initPool cfgPlain 1)
    ∧ (Get 1 0 (initPool cfgPlain 1)).1 = some 0
    ∧ (1 ≤ ((Get 1 0 (initPool cfgPlain 1)).2.heap 0).usage
      ∧ ((initPool cfgPlain 1).shards.getD (getShardIdx 1 0) none = none →
          ((Get 1 0 (initPool cfgPlain 1)).2.heap 0).next = none)
      ∧ (∀ o : Nat, (initPool cfgPlain 1).shards.getD (getShardIdx 1 0) none = some o →
          0 = o ∧ ((Get 1 0 (initPool cfgPlain 1)).2.heap 0).next
            = ((initPool cfgPlain 1).heap o).next)) :=
  ⟨Reachable.init cfgPlain 8 (initPool cfgPlain 1) rfl, rfl,
    get_usage_positive_next_unchanged 1 0 (initPool cfgPlain 1) 0
      (Reachable.init cfgPlain 8 (initPool cfgPlain 1) rfl) rfl⟩

/-! Chain lemmas for the in-place list surgery of filterUsableObjects
and clear. -/

/-- setNext at i leaves the next field of every other object alone. -/
theorem setNext_ne (h : Heap) (i : Nat) (v : Option Nat) (j : Nat)
    (hj : j ≠ i) : setNext h i v j = h j := by
  simp [setNext, hj]

/-- setNext stores v into the next field of i. -/
theorem setNext_self_next (h : Heap) (i : Nat) (v : Option Nat) :
    ((setNext h i v) i).next = v := by
  simp [setNext]

/-- resetUsage leaves every next field alone. -/
theorem resetUsage_next (h : Heap) (i j : Nat) :
    ((resetUsage h i) j).next = (h j).next := by
  unfold resetUsage
  by_cases hj : j = i <;> simp [hj]

/-- resetUsage stores 0 into the usage field of i. -/
theorem resetUsage_self (h : Heap) (i : Nat) :
    ((resetUsage h i) i).usage = 0 := by
  simp [resetUsage]

/-- resetUsage at i leaves every other usage field alone. -/
theorem resetUsage_ne (h : Heap) (i j : Nat) (hj : j ≠ i) :
    ((resetUsage h i) j).usage = (h j).usage := by
  simp [resetUsage, hj]

/-- A chain only reads the next fields of its members. -/
theorem isChain_congr (h h2 : Heap) :
    ∀ (L : List Nat) (p : Option Nat),
      (∀ a ∈ L, (h2 a).next = (h a).next) → isChain h p L → isChain h2 p L := by
  intro L
  induction L with
  | nil => intro p _ hc; exact hc
  | cons a rest ih =>
    intro p hagree hc
    obtain ⟨hp, hrest⟩ : p = some a ∧ isChain h (h a).next rest := hc
    refine ⟨hp, ?_⟩
    rw [hagree a (by simp)]
    exact ih (h a).next (fun b hb => hagree b (by simp [hb])) hrest

/-- A partially built kept list only reads the next fields of its
members. -/
theorem linked_congr (h h2 : Heap) :
    ∀ L : List Nat,
      (∀ a ∈ L, (h2 a).next = (h a).next) → linked h L → linked h2 L := by
  intro L
  induction L with
  | nil => intro _ _; trivial
  | cons a rest ih =>
    intro hagree hl
    rcases rest with _ | ⟨b, rest2⟩
    · trivial
    · obtain ⟨hab, hrest⟩ : (h a).next = some b ∧ linked h (b :: rest2) := hl
      refine ⟨?_, ?_⟩
      · rw [hagree a (by simp)]; exact hab
      · exact ih (fun x hx => hagree x (by simp [hx])) hrest

/-- Storing a new next into the LAST node of a duplicate-free partially
built list does not disturb its internal links. -/
theorem linked_setNext_last (h : Heap) (v : Option Nat) :
    ∀ (K : List Nat) (t : Nat), linked h K → K.Nodup →
      K.getLast? = some t → linked (setNext h t v) K := by
  intro K
  induction K with
  | nil => intro t _ _ hlast; cases hlast
  | cons a rest ih =>
    intro t hl hnd hlast
    rcases rest with _ | ⟨b, rest2⟩
    · trivial
    · obtain ⟨hab, hrest⟩ : (h a).next = some b ∧ linked h (b :: rest2) := hl
      have hlast2 : (b :: rest2).getLast? = some t := hlast
      have htmem : t ∈ b :: rest2 := List.mem_of_getLast?_eq_some hlast2
      have hanot : a ∉ b :: rest2 := (List.nodup_cons.mp hnd).1
      have hat : a ≠ t := fun hat => hanot (hat ▸ htmem)
      refine ⟨?_, ?_⟩
      · rw [setNext_ne h t v a hat]; exact hab
      · exact ih t hrest (List.nodup_cons.mp hnd).2 hlast2

/-- Appending a node to a partially built list whose last link has been
set. -/
theorem linked_append_last (h : Heap) (c : Nat) :
    ∀ (K : List Nat) (t : Nat), linked h K → K.getLast? = some t →
      (h t).next = some c → linked h (K ++ [c]) := by
  intro K
  induction K with
  | nil => intro t _ hlast _; cases hlast
  | cons a rest ih =>
    intro t hl hlast hnext
    rcases rest with _ | ⟨b, rest2⟩
    · have hta : t = a := by
        have : some a = some t := hlast
        exact (Option.some.inj this).symm
      subst hta
      exact ⟨hnext, trivial⟩
    · obtain ⟨hab, hrest⟩ : (h a).next = some b ∧ linked h (b :: rest2) := hl
      exact ⟨hab, ih t hrest hlast hnext⟩

/-- A partially built list whose last next field is nil is a chain from
its head. -/
theorem isChain_of_linked (h : Heap) :
    ∀ K : List Nat, linked h K →
      (∀ t, K.getLast? = some t → (h t).next = none) →
      isChain h K.head? K := by
  intro K
  induction K with
  | nil => intro _ _; rfl
  | cons a rest ih =>
    intro hl hlast
    rcases rest with _ | ⟨b, rest2⟩
    · exact ⟨rfl, hlast a rfl⟩
    · obtain ⟨hab, hrest⟩ : (h a).next = some b ∧ linked h (b :: rest2) := hl
      refine ⟨rfl, ?_⟩
      rw [hab]
      exact ih hrest (fun t ht => hlast t ht)

/-! Unfolding equations for one iteration of the filter loop. -/

/-- Keeping the current node when the kept list is still empty. -/
theorem filterLoop_cons_kept_nil (m : Int) (fuel : Nat) (h : Heap)
    (c : Nat) (ev : Nat) (hk : m ≤ (h c).usage) :
    filterLoop m (fuel + 1) h (some c) none none ev
      = filterLoop m fuel (resetUsage h c) (h c).next (some c) (some c) ev := by
  simp only [filterLoop]
  rw [if_pos hk]

/-- Keeping the current node when the kept list is non-empty: the
previous kept tail is linked to the current node. -/
theorem filterLoop_cons_kept (m : Int) (fuel : Nat) (h : Heap)
    (c k0 t : Nat) (ev : Nat) (hk : m ≤ (h c).usage) :
    filterLoop m (fuel + 1) h (some c) (some k0) (some t) ev
      = filterLoop m fuel (setNext (resetUsage h c) t (some c)) (h c).next
          (some k0) (some c) ev := by
  simp only [filterLoop]
  rw [if_pos hk]

/-- Evicting the current node: its next field is cleared and the evicted
counter incremented. -/
theorem filterLoop_cons_evict (m : Int) (fuel : Nat) (h : Heap)
    (c : Nat) (kh kt : Option Nat) (ev : Nat) (hk : ¬ m ≤ (h c).usage) :
    filterLoop m (fuel + 1) h (some c) kh kt ev
      = filterLoop m fuel (setNext h c none) (h c).next kh kt (ev + 1) := by
  simp only [filterLoop]
  rw [if_neg hk]

/-- resetUsage at i leaves every other object record alone. -/
theorem resetUsage_ne_rec (h : Heap) (i j : Nat) (hj : j ≠ i) :
    resetUsage h i j = h j := by
  simp [resetUsage, hj]

/-- The loop invariant of filterUsableObjects, proved along the detached
list L: with kept-so-far list K (already reset, internally linked,
disjoint from L), the loop keeps exactly the members of L whose usage is
at least m, in order, appended to K; it resets each kept usage counter,
clears the next field of each evicted node, counts the evicted nodes,
and touches no other object. -/
theorem filterLoop_spec (m : Int) :
    ∀ (L : List Nat) (fuel : Nat) (h : Heap) (cur : Option Nat)
      (K : List Nat) (ev : Nat),
      isChain h cur L → L.Nodup → K.Nodup → (∀ a ∈ K, a ∉ L) →
      linked h K → (∀ a ∈ K, (h a).usage = 0) → L.length ≤ fuel →
      (filterLoop m fuel h cur K.head? K.getLast? ev).evicted
          = ev + (L.filter (fun i => decide ((h i).usage < m))).length
      ∧ (filterLoop m fuel h cur K.head? K.getLast? ev).keptHead
          = (K ++ L.filter (fun i => decide (m ≤ (h i).usage))).head?
      ∧ (filterLoop m fuel h cur K.head? K.getLast? ev).keptTail
          = (K ++ L.filter (fun i => decide (m ≤ (h i).usage))).getLast?
      ∧ linked (filterLoop m fuel h cur K.head? K.getLast? ev).heap
          (K ++ L.filter (fun i => decide (m ≤ (h i).usage)))
      ∧ (∀ a ∈ K ++ L.filter (fun i => decide (m ≤ (h i).usage)),
          ((filterLoop m fuel h cur K.head? K.getLast? ev).heap a).usage = 0)
      ∧ (∀ a ∈ L.filter (fun i => decide ((h i).usage < m)),
          ((filterLoop m fuel h cur K.head? K.getLast? ev).heap a).next = none)
      ∧ (∀ j, j ∉ K → j ∉ L →
          (filterLoop m fuel h cur K.head? K.getLast? ev).heap j = h j) := by
  intro L
  induction L with
  | nil =>
    intro fuel h cur K ev hchain _ _ _ hlink husg _
    have hcur : cur = none := hchain
    subst hcur
    have hres : filterLoop m fuel h none K.head? K.getLast? ev
        = ⟨h, K.head?, K.getLast?, ev⟩ := by
      cases fuel <;> rfl
    rw [hres]
    refine ⟨by simp, by simp, by simp, by simpa using hlink, ?_, by simp,
      fun j _ _ => rfl⟩
    intro a ha
    simp only [List.filter_nil, List.append_nil] at ha
    exact husg a ha
  | cons c rest ih =>
    intro fuel h cur K ev hchain hLnd hKnd hdisj hlink husg hfuel
    obtain ⟨hcur, hrest⟩ : cur = some c ∧ isChain h (h c).next rest := hchain
    subst hcur
    have hcne : c ∉ rest := (List.nodup_cons.mp hLnd).1
    have hrnd : rest.Nodup := (List.nodup_cons.mp hLnd).2
    have hcK : c ∉ K := fun hcK => hdisj c hcK (by simp)
    rcases fuel with _ | fuel
    · simp at hfuel
    have hfuel2 : rest.length ≤ fuel := by
      simp only [List.length_cons] at hfuel
      omega
    by_cases hkeep : m ≤ (h c).usage
    · have hkc : decide (m ≤ (h c).usage) = true := decide_eq_true hkeep
      have hkc2 : decide ((h c).usage < m) = false :=
        decide_eq_false (not_lt.mpr hkeep)
      have hfc1 : (c :: rest).filter (fun i => decide (m ≤ (h i).usage))
          = c :: rest.filter (fun i => decide (m ≤ (h i).usage)) := by
        simp [List.filter_cons, hkc]
      have hfc2 : (c :: rest).filter (fun i => decide ((h i).usage < m))
          = rest.filter (fun i => decide ((h i).usage < m)) := by
        simp [List.filter_cons, hkc2]
      rw [hfc1, hfc2]
      rcases K with _ | ⟨k0, K2⟩
      · -- kept list still empty
        rw [show ([] : List Nat).head? = none from rfl,
          show ([] : List Nat).getLast? = none from rfl,
          filterLoop_cons_kept_nil m fuel h c ev hkeep]
        have hagree1 : ∀ a ∈ rest, ((resetUsage h c) a).next = (h a).next :=
          fun a _ => resetUsage_next h c a
        have husg1 : ∀ a ∈ rest, ((resetUsage h c) a).usage = (h a).usage := by
          intro a ha
          rw [resetUsage_ne_rec h c a (fun hac => hcne (hac ▸ ha))]
        have ih2 := ih fuel (resetUsage h c) (h c).next [c] ev
          (isChain_congr h (resetUsage h c) rest (h c).next hagree1 hrest)
          hrnd (by simp)
          (by
            intro a ha
            simp only [List.mem_singleton] at ha
            rw [ha]
            exact hcne)
          trivial
          (by
            intro a ha
            simp only [List.mem_singleton] at ha
            rw [ha]
            exact resetUsage_self h c)
          hfuel2
        have hf1 : rest.filter (fun i => decide (m ≤ ((resetUsage h c) i).usage))
            = rest.filter (fun i => decide (m ≤ (h i).usage)) :=
          List.filter_congr (fun x hx => by rw [husg1 x hx])
        have hf2 : rest.filter (fun i => decide (((resetUsage h c) i).usage < m))
            = rest.filter (fun i => decide ((h i).usage < m)) :=
          List.filter_congr (fun x hx => by rw [husg1 x hx])
        rw [hf1, hf2] at ih2
        obtain ⟨e1, e2, e3, e4, e5, e6, e7⟩ := ih2
        refine ⟨e1, e2, e3, e4, e5, e6, ?_⟩
        intro j hjK hjL
        have hjc : j ≠ c := fun hjc => hjL (by simp [hjc])
        have hjrest : j ∉ rest := fun hjr => hjL (by simp [hjr])
        exact (e7 j (by simp [hjc]) hjrest).trans (resetUsage_ne_rec h c j hjc)
      · -- kept list non-empty, with last node t
        rcases hkt : (k0 :: K2).getLast? with _ | t
        · rw [List.getLast?_eq_none_iff] at hkt
          cases hkt
        have hstep : filterLoop m (fuel + 1) h (some c)
              ((k0 :: K2).head?) (some t) ev
            = filterLoop m fuel (setNext (resetUsage h c) t (some c)) (h c).next
                (some k0) (some c) ev :=
          filterLoop_cons_kept m fuel h c k0 t ev hkeep
        rw [hstep]
        have htK : t ∈ k0 :: K2 := List.mem_of_getLast?_eq_some hkt
        have htL : t ∉ c :: rest := hdisj t htK
        have htc : t ≠ c := fun htc => htL (by simp [htc])
        have htrest : t ∉ rest := fun htr => htL (by simp [htr])
        have hagree1 : ∀ a ∈ rest,
            ((setNext (resetUsage h c) t (some c)) a).next = (h a).next := by
          intro a ha
          rw [setNext_ne (resetUsage h c) t (some c) a
            (fun hat => htrest (hat ▸ ha))]
          exact resetUsage_next h c a
        have husg1 : ∀ a ∈ rest,
            ((setNext (resetUsage h c) t (some c)) a).usage = (h a).usage := by
          intro a ha
          rw [usage_setNext (resetUsage h c) t (some c) a]
          rw [resetUsage_ne_rec h c a (fun hac => hcne (hac ▸ ha))]
        have hlink2 : linked (setNext (resetUsage h c) t (some c))
            ((k0 :: K2) ++ [c]) := by
          have l1 : linked (resetUsage h c) (k0 :: K2) :=
            linked_congr h (resetUsage h c) (k0 :: K2)
              (fun a _ => resetUsage_next h c a) hlink
          have l2 : linked (setNext (resetUsage h c) t (some c)) (k0 :: K2) :=
            linked_setNext_last (resetUsage h c) (some c) (k0 :: K2) t l1 hKnd hkt
          exact linked_append_last (setNext (resetUsage h c) t (some c)) c
            (k0 :: K2) t l2 hkt (setNext_self_next (resetUsage h c) t (some c))
        have ih2 := ih fuel (setNext (resetUsage h c) t (some c)) (h c).next
          ((k0 :: K2) ++ [c]) ev
          (isChain_congr h _ rest (h c).next hagree1 hrest)
          hrnd
          (hKnd.append (by simp)
            (by
              intro a haK hac
              simp only [List.mem_singleton] at hac
              exact hcK (hac ▸ haK)))
          (by
            intro a ha har
            rcases List.mem_append.mp ha with haK | hac
            · exact hdisj a haK (by simp [har])
            · simp only [List.mem_singleton] at hac
              exact hcne (hac ▸ har))
          hlink2
          (by
            intro a ha
            rcases List.mem_append.mp ha with haK | hac
            · rw [usage_setNext]
              rw [resetUsage_ne_rec h c a (fun hac2 => hcK (hac2 ▸ haK))]
              exact husg a haK
            · simp only [List.mem_singleton] at hac
              rw [hac, usage_setNext]
              exact resetUsage_self h c)
          hfuel2
        have hf1 : rest.filter
              (fun i => decide (m ≤ ((setNext (resetUsage h c) t (some c)) i).usage))
            = rest.filter (fun i => decide (m ≤ (h i).usage)) :=
          List.filter_congr (fun x hx => by rw [husg1 x hx])
        have hf2 : rest.filter
              (fun i => decide (((setNext (resetUsage h c) t (some c)) i).usage < m))
            = rest.filter (fun i => decide ((h i).usage < m)) :=
          List.filter_congr (fun x hx => by rw [husg1 x hx])
        rw [hf1, hf2, List.getLast?_concat] at ih2
        simp only [List.append_assoc, List.singleton_append] at ih2
        obtain ⟨e1, e2, e3, e4, e5, e6, e7⟩ := ih2
        refine ⟨e1, e2, e3, e4, e5, e6, ?_⟩
        intro j hjK hjL
        have hjc : j ≠ c := fun hjc => hjL (by simp [hjc])
        have hjrest : j ∉ rest := fun hjr => hjL (by simp [hjr])
        have hjt : j ≠ t := fun hjt => hjK (hjt ▸ htK)
        have hjKc : j ∉ (k0 :: K2) ++ [c] := by
          intro hj
          rcases List.mem_append.mp hj with hj | hj
          · exact hjK hj
          · simp only [List.mem_singleton] at hj
            exact hjc hj
        exact (e7 j hjKc hjrest).trans
          ((setNext_ne (resetUsage h c) t (some c) j hjt).trans
            (resetUsage_ne_rec h c j hjc))
    · -- evicted
      have hkc : decide (m ≤ (h c).usage) = false := decide_eq_false hkeep
      have hkc2 : decide ((h c).usage < m) = true :=
        decide_eq_true (not_le.mp hkeep)
      have hfc1 : (c :: rest).filter (fun i => decide (m ≤ (h i).usage))
          = rest.filter (fun i => decide (m ≤ (h i).usage)) := by
        simp [List.filter_cons, hkc]
      have hfc2 : (c :: rest).filter (fun i => decide ((h i).usage < m))
          = c :: rest.filter (fun i => decide ((h i).usage < m)) := by
        simp [List.filter_cons, hkc2]
      rw [hfc1, hfc2, filterLoop_cons_evict m fuel h c K.head? K.getLast? ev hkeep]
      have hagree1 : ∀ a ∈ rest, ((setNext h c none) a).next = (h a).next :=
        fun a ha => congrArg Node.next
          (setNext_ne h c none a (fun hac => hcne (hac ▸ ha)))
      have ih2 := ih fuel (setNext h c none) (h c).next K (ev + 1)
        (isChain_congr h (setNext h c none) rest (h c).next hagree1 hrest)
        hrnd hKnd
        (fun a haK har => hdisj a haK (by simp [har]))
        (linked_congr h (setNext h c none) K
          (fun a haK => congrArg Node.next
            (setNext_ne h c none a (fun hac => hcK (hac ▸ haK)))) hlink)
        (by
          intro a haK
          rw [usage_setNext]
          exact husg a haK)
        hfuel2
      have husg1 : ∀ a ∈ rest, ((setNext h c none) a).usage = (h a).usage :=
        fun a _ => usage_setNext h c none a
      have hf1 : rest.filter (fun i => decide (m ≤ ((setNext h c none) i).usage))
          = rest.filter (fun i => decide (m ≤ (h i).usage)) :=
        List.filter_congr (fun x hx => by rw [husg1 x hx])
      have hf2 : rest.filter (fun i => decide (((setNext h c none) i).usage < m))
          = rest.filter (fun i => decide ((h i).usage < m)) :=
        List.filter_congr (fun x hx => by rw [husg1 x hx])
      rw [hf1, hf2] at ih2
      obtain ⟨e1, e2, e3, e4, e5, e6, e7⟩ := ih2
      refine ⟨?_, e2, e3, e4, e5, ?_, ?_⟩
      · rw [e1]
        simp only [List.length_cons]
        omega
      · intro a ha
        rcases List.mem_cons.mp ha with hac | har
        · rw [hac]
          rw [e7 c hcK hcne]
          exact setNext_self_next h c none
        · exact e6 a har
      · intro j hjK hjL
        have hjc : j ≠ c := fun hjc => hjL (by simp [hjc])
        have hjrest : j ∉ rest := fun hjr => hjL (by simp [hjr])
        rw [e7 j hjK hjrest]
        exact setNext_ne h c none j hjc


/-- Full specification of filterUsableObjects on a detached chain L:
the kept output is the ordered sublist of L with usage at least m,
rebuilt as a nil-terminated chain with all usage counters reset; every
evicted node has its next field cleared; the evicted count is exact; and
no object outside L is touched. -/
theorem filterUsableObjects_spec (m : Int) (fuel : Nat) (h : Heap)
    (head : Option Nat) (L : List Nat)
    (hchain : isChain h head L) (hnodup : L.Nodup) (hfuel : L.length ≤ fuel) :
    (filterUsableObjects m fuel h head).evicted
        = (L.filter (fun i => decide ((h i).usage < m))).length
    ∧ (filterUsableObjects m fuel h head).keptHead
        = (L.filter (fun i => decide (m ≤ (h i).usage))).head?
    ∧ (filterUsableObjects m fuel h head).keptTail
        = (L.filter (fun i => decide (m ≤ (h i).usage))).getLast?
    ∧ isChain (filterUsableObjects m fuel h head).heap
        (L.filter (fun i => decide (m ≤ (h i).usage))).head?
        (L.filter (fun i => decide (m ≤ (h i).usage)))
    ∧ (∀ a ∈ L.filter (fun i => decide (m ≤ (h i).usage)),
        ((filterUsableObjects m fuel h head).heap a).usage = 0)
    ∧ (∀ a ∈ L.filter (fun i => decide ((h i).usage < m)),
        ((filterUsableObjects m fuel h head).heap a).next = none)
    ∧ (∀ j, j ∉ L → (filterUsableObjects m fuel h head).heap j = h j) := by
  obtain ⟨e1, e2, e3, e4, e5, e6, e7⟩ :=
    filterLoop_spec m L fuel h head [] 0 hchain hnodup (by simp) (by simp)
      trivial (by simp) hfuel
  simp only [List.nil_append, List.head?_nil, List.getLast?_nil, Nat.zero_add]
    at e1 e2 e3 e4 e5 e6 e7
  have hsub : ∀ a ∈ L.filter (fun i => decide (m ≤ (h i).usage)), a ∈ L :=
    fun a ha => List.mem_of_mem_filter ha
  rcases hkeq : L.filter (fun i => decide (m ≤ (h i).usage)) with _ | ⟨k, ks⟩
  · rw [hkeq] at e2 e3 e4 e5
    simp only [List.head?_nil, List.getLast?_nil] at e2 e3
    simp only [filterUsableObjects]
    rw [e2, e3]
    exact ⟨e1, rfl, rfl, rfl, by simp, e6, fun j hj => e7 j (by simp) hj⟩
  · rcases hl : (k :: ks).getLast? with _ | t
    · rw [List.getLast?_eq_none_iff] at hl
      cases hl
    rw [hkeq] at e2 e3 e4 e5
    rw [hl] at e3
    simp only [List.head?_cons] at e2
    simp only [filterUsableObjects]
    rw [e2, e3]
    dsimp only []
    have hknd : (k :: ks).Nodup := hkeq ▸ hnodup.filter _
    have htmem : t ∈ k :: ks := List.mem_of_getLast?_eq_some hl
    have htL : t ∈ L := hsub t (hkeq ▸ htmem)
    have hlink2 : linked
        (setNext (filterLoop m fuel h head none none 0).heap t none) (k :: ks) :=
      linked_setNext_last _ none (k :: ks) t e4 hknd hl
    have hchain2 : isChain
        (setNext (filterLoop m fuel h head none none 0).heap t none)
        (some k) (k :: ks) := by
      have hres := isChain_of_linked _ (k :: ks) hlink2
        (fun t2 ht2 => by
          rw [hl] at ht2
          rw [← Option.some.inj ht2]
          exact setNext_self_next _ t none)
      exact hres
    refine ⟨e1, rfl, rfl, hchain2, ?_, ?_, ?_⟩
    · intro a ha
      rw [usage_setNext]
      exact e5 a ha
    · intro a ha
      have hat : a ≠ t := by
        intro hat
        have h1 := (List.mem_filter.mp ha).2
        have h2 := (List.mem_filter.mp (hkeq ▸ htmem :
          t ∈ L.filter (fun i => decide (m ≤ (h i).usage)))).2
        rw [hat] at h1
        simp only [decide_eq_true_eq] at h1 h2
        omega
      rw [setNext_ne _ t none a hat]
      exact e6 a ha
    · intro j hj
      have hjt : j ≠ t := fun hjt => hj (hjt ▸ htL)
      rw [setNext_ne _ t none j hjt]
      exact e7 j (by simp) hj

/-- A shard index whose head read is non-nil is in range. -/
theorem getD_some_lt (l : List (Option Nat)) (i : Nat) (a : Nat)
    (h : l.getD i none = some a) : i < l.length := by
  by_contra hlt
  rw [List.getD_eq_getElem?_getD, List.getElem?_eq_none (by omega)] at h
  cases h

/-- Reading back an in-range shard head just written. -/
theorem getD_set_self (l : List (Option Nat)) (i : Nat) (v : Option Nat)
    (h : i < l.length) : (l.set i v).getD i none = v := by
  rw [List.getD_eq_getElem?_getD, List.getElem?_set_self (by simpa using h)]
  rfl

/-- C2.  One cleanupShard pass over a shard holding the detached
duplicate-free list L (with MinUsageCount m positive) partitions L: the
shard head afterwards chains exactly the sublist of L with usage at
least m, in original order, every kept usage counter reset to 0 (the
kept tail ends the chain with nil next, per isChain); every node with
usage below m has its next cleared, and exactly those nodes are counted:
currentLength drops by their number; the user cleaner is not invoked
(cleaned log unchanged); no object outside L is touched. -/
theorem cleanupShard_partitions (s : PoolState) (idx fuel : Nat) (L : List Nat)
    (hchain : isChain s.heap (s.shards.getD idx none) L)
    (hnodup : L.Nodup) (hfuel : L.length ≤ fuel)
    (hm : 0 < s.cfg.cleanup.minUsageCount) :
    (cleanupShard s idx fuel).shards.getD idx none
        = (L.filter (fun i =>
            decide (s.cfg.cleanup.minUsageCount ≤ (s.heap i).usage))).head?
    ∧ isChain (cleanupShard s idx fuel).heap
        (L.filter (fun i =>
          decide (s.cfg.cleanup.minUsageCount ≤ (s.heap i).usage))).head?
        (L.filter (fun i =>
          decide (s.cfg.cleanup.minUsageCount ≤ (s.heap i).usage)))
    ∧ (∀ a ∈ L.filter (fun i =>
          decide (s.cfg.cleanup.minUsageCount ≤ (s.heap i).usage)),
        ((cleanupShard s idx fuel).heap a).usage = 0)
    ∧ (∀ a ∈ L.filter (fun i =>
          decide ((s.heap i).usage < s.cfg.cleanup.minUsageCount)),
        ((cleanupShard s idx fuel).heap a).next = none)
    ∧ (cleanupShard s idx fuel).currentLength
        = s.currentLength - ((L.filter (fun i =>
            decide ((s.heap i).usage < s.cfg.cleanup.minUsageCount))).length : Int)
    ∧ (cleanupShard s idx fuel).cleaned = s.cleaned
    ∧ (∀ j, j ∉ L → (cleanupShard s idx fuel).heap j = s.heap j) := by
  rcases hh : s.shards.getD idx none with _ | head
  · -- empty shard: the pass is a no-op and L is empty
    rw [hh] at hchain
    have hL : L = [] := by
      cases L with
      | nil => rfl
      | cons a r => exact Option.noConfusion hchain.1
    subst hL
    have hcs : cleanupShard s idx fuel = s := by
      unfold cleanupShard tryTakeOwnership
      rw [hh]
    rw [hcs]
    refine ⟨by rw [hh]; rfl, rfl, by simp,
      by simp, by simp, rfl, fun j _ => rfl⟩
  · rw [hh] at hchain
    have hlt : idx < s.shards.length := getD_some_lt s.shards idx head hh
    obtain ⟨f1, f2, f3, f4, f5, f6, f7⟩ :=
      filterUsableObjects_spec s.cfg.cleanup.minUsageCount fuel s.heap
        (some head) L hchain hnodup hfuel
    have hcs : cleanupShard s idx fuel
        = (let s1 : PoolState := { s with shards := s.shards.set idx none }
           let r := filterUsableObjects s.cfg.cleanup.minUsageCount fuel
             s.heap (some head)
           let s2 : PoolState := { s1 with heap := r.heap }
           let s3 : PoolState := if 0 < r.evicted
             then { s2 with currentLength := s2.currentLength - (r.evicted : Int) }
             else s2
           match r.keptHead, r.keptTail with
           | some kh, some kt => reinsertKeptObjects s3 idx kh kt
           | _, _ => s3) := by
      unfold cleanupShard tryTakeOwnership
      rw [hh]
    rcases hkeq : L.filter (fun i =>
        decide (s.cfg.cleanup.minUsageCount ≤ (s.heap i).usage)) with _ | ⟨k, ks⟩
    · -- nothing kept: the shard stays empty
      have hkh : (filterUsableObjects s.cfg.cleanup.minUsageCount fuel
          s.heap (some head)).keptHead = none := by
        rw [f2, hkeq]
        rfl
      have hkt : (filterUsableObjects s.cfg.cleanup.minUsageCount fuel
          s.heap (some head)).keptTail = none := by
        rw [f3, hkeq]
        rfl
      rw [hcs]
      simp only [hkh, hkt]
      by_cases hev : 0 < (filterUsableObjects s.cfg.cleanup.minUsageCount fuel
          s.heap (some head)).evicted
      · simp only [if_pos hev]
        refine ⟨?_, rfl, by simp, fun a ha => f6 a ha, ?_, trivial,
          fun j hj => f7 j hj⟩
        · exact getD_set_self s.shards idx none hlt
        · simp only [f1]
      · simp only [if_neg hev]
        have hev0 : (L.filter (fun i =>
            decide ((s.heap i).usage < s.cfg.cleanup.minUsageCount))).length = 0 := by
          rw [← f1]
          omega
        refine ⟨?_, rfl, by simp, fun a ha => f6 a ha, ?_, trivial,
          fun j hj => f7 j hj⟩
        · exact getD_set_self s.shards idx none hlt
        · rw [hev0]
          simp
    · -- kept list k :: ks is reinstalled as the shard head
      have hkh : (filterUsableObjects s.cfg.cleanup.minUsageCount fuel
          s.heap (some head)).keptHead = some k := by
        rw [f2, hkeq]
        rfl
      rcases hl : (k :: ks).getLast? with _ | t
      · rw [List.getLast?_eq_none_iff] at hl
        cases hl
      have hkt : (filterUsableObjects s.cfg.cleanup.minUsageCount fuel
          s.heap (some head)).keptTail = some t := by
        rw [f3, hkeq, hl]
      rw [hkeq] at f4 f5
      rw [hcs]
      simp only [hkh, hkt]
      by_cases hev : 0 < (filterUsableObjects s.cfg.cleanup.minUsageCount fuel
          s.heap (some head)).evicted
      · simp only [if_pos hev]
        simp only [reinsertKeptObjects]
        rw [getD_set_self s.shards idx none hlt]
        refine ⟨?_, f4, f5, fun a ha => f6 a ha, ?_, rfl, fun j hj => f7 j hj⟩
        · exact getD_set_self _ idx (some k) (by simpa using hlt)
        · simp only [f1]
      · simp only [if_neg hev]
        have hev0 : (L.filter (fun i =>
            decide ((s.heap i).usage < s.cfg.cleanup.minUsageCount))).length = 0 := by
          rw [← f1]
          omega
        simp only [reinsertKeptObjects]
        rw [getD_set_self s.shards idx none hlt]
        refine ⟨?_, f4, f5, fun a ha => f6 a ha, ?_, rfl, fun j hj => f7 j hj⟩
        · exact getD_set_self _ idx (some k) (by simpa using hlt)
        · rw [hev0]
          simp

/-- C2 witness: one cleanupShard pass over the shard list [1, 0] of the
dC2 pool (MinUsageCount 2) keeps object 1 (usage 2) as the new head and
evicts object 0 (usage 1), decrementing currentLength by 1 and leaving
the cleaner log untouched. -/
theorem cleanupShard_partitions_witness :
    isChain dC2.heap (dC2.shards.getD 0 none) [1, 0]
    ∧ ([1, 0] : List Nat).Nodup
    ∧ ([1, 0] : List Nat).length ≤ 5
    ∧ (0 : Int) < dC2.cfg.cleanup.minUsageCount
    ∧ (cleanupShard dC2 0 5).shards.getD 0 none
        = (([1, 0] : List Nat).filter (fun i =>
            decide (dC2.cfg.cleanup.minUsageCount ≤ (dC2.heap i).usage))).head?
    ∧ (cleanupShard dC2 0 5).currentLength
        = dC2.currentLength - ((([1, 0] : List Nat).filter (fun i =>
            decide ((dC2.heap i).usage < dC2.cfg.cleanup.minUsageCount))).length : Int)
    ∧ (cleanupShard dC2 0 5).cleaned = dC2.cleaned := by
  have hch : isChain dC2.heap (dC2.shards.getD 0 none) [1, 0] := ⟨rfl, rfl, rfl⟩
  have H := cleanupShard_partitions dC2 0 5 [1, 0] hch (by decide) (by decide)
    (by decide)
  exact ⟨hch, by decide, by decide, by decide, H.1, H.2.2.2.2.1, H.2.2.2.2.2.1⟩

/-- Writing one shard head leaves the other heads alone. -/
theorem getD_set_ne (l : List (Option Nat)) (i : Nat) (v : Option Nat)
    (j : Nat) (h : j ≠ i) : (l.set i v).getD j none = l.getD j none := by
  rw [List.getD_eq_getElem?_getD, List.getD_eq_getElem?_getD,
    List.getElem?_set_ne (fun hij => h hij.symm)]

/-- One drain step of the clear loop. -/
theorem clearLoop_cons (fuel : Nat) (h : Heap) (cl : List Nat) (c : Nat) :
    clearLoop (fuel + 1) h cl (some c)
      = ((clearLoop fuel (setNext h c none) (cl ++ [c]) (h c).next).1,
         (clearLoop fuel (setNext h c none) (cl ++ [c]) (h c).next).2.1,
         (clearLoop fuel (setNext h c none) (cl ++ [c]) (h c).next).2.2 + 1) :=
  rfl

/-- The drain loop of clear on a detached chain L: it passes exactly the
members of L to the cleaner, in list order, counts them, clears every
next field along L, changes no usage counter, and touches nothing
outside L. -/
theorem clearLoop_spec :
    ∀ (L : List Nat) (fuel : Nat) (h : Heap) (cl : List Nat) (cur : Option Nat),
      isChain h cur L → L.Nodup → L.length ≤ fuel →
      (clearLoop fuel h cl cur).2.1 = cl ++ L
      ∧ (clearLoop fuel h cl cur).2.2 = L.length
      ∧ (∀ a ∈ L, ((clearLoop fuel h cl cur).1 a).next = none)
      ∧ (∀ a : Nat, ((clearLoop fuel h cl cur).1 a).usage = (h a).usage)
      ∧ (∀ j, j ∉ L → (clearLoop fuel h cl cur).1 j = h j) := by
  intro L
  induction L with
  | nil =>
    intro fuel h cl cur hchain _ _
    have hcur : cur = none := hchain
    subst hcur
    have hres : clearLoop fuel h cl none = (h, cl, 0) := by
      cases fuel <;> rfl
    rw [hres]
    exact ⟨by simp, rfl, by simp, fun a => rfl, fun j _ => rfl⟩
  | cons c rest ih =>
    intro fuel h cl cur hchain hnodup hfuel
    obtain ⟨hcur, hrest⟩ : cur = some c ∧ isChain h (h c).next rest := hchain
    subst hcur
    have hcne : c ∉ rest := (List.nodup_cons.mp hnodup).1
    rcases fuel with _ | fuel
    · simp at hfuel
    rw [clearLoop_cons]
    have ih2 := ih fuel (setNext h c none) (cl ++ [c]) (h c).next
      (isChain_congr h (setNext h c none) rest (h c).next
        (fun a ha => congrArg Node.next
          (setNext_ne h c none a (fun hac => hcne (hac ▸ ha))))
        hrest)
      (List.nodup_cons.mp hnodup).2
      (by
        simp only [List.length_cons] at hfuel
        omega)
    obtain ⟨e1, e2, e3, e4, e5⟩ := ih2
    refine ⟨?_, ?_, ?_, ?_, ?_⟩
    · rw [e1]
      simp
    · rw [e2]
      simp
    · intro a ha
      rcases List.mem_cons.mp ha with hac | har
      · rw [hac]
        rw [e5 c hcne]
        exact setNext_self_next h c none
      · exact e3 a har
    · intro a
      rw [e4 a]
      exact usage_setNext h c none a
    · intro j hj
      have hjc : j ≠ c := fun hjc => hj (by simp [hjc])
      have hjr : j ∉ rest := fun hjr => hj (by simp [hjr])
      rw [e5 j hjr]
      exact setNext_ne h c none j hjc

/-- clearShard on a shard holding the detached chain L: the head becomes
nil (other heads untouched), the members of L are appended to the
cleaner log in order, currentLength drops by their number, their next
fields are cleared, and nothing else changes. -/
theorem clearShard_spec (s : PoolState) (idx fuel : Nat) (L : List Nat)
    (hchain : isChain s.heap (s.shards.getD idx none) L)
    (hnodup : L.Nodup) (hfuel : L.length ≤ fuel) :
    (∀ i, (clearShard s idx fuel).shards.getD i none
        = if i = idx then none else s.shards.getD i none)
    ∧ (clearShard s idx fuel).shards.length = s.shards.length
    ∧ (clearShard s idx fuel).cleaned = s.cleaned ++ L
    ∧ (clearShard s idx fuel).currentLength = s.currentLength - (L.length : Int)
    ∧ (∀ a ∈ L, ((clearShard s idx fuel).heap a).next = none)
    ∧ (∀ j, j ∉ L → (clearShard s idx fuel).heap j = s.heap j)
    ∧ (clearShard s idx fuel).cfg = s.cfg
    ∧ (clearShard s idx fuel).stopClosed = s.stopClosed
    ∧ (clearShard s idx fuel).blocked = s.blocked
    ∧ (clearShard s idx fuel).allocCount = s.allocCount
    ∧ (clearShard s idx fuel).nextId = s.nextId := by
  rcases hh : s.shards.getD idx none with _ | head
  · rw [hh] at hchain
    have hL : L = [] := by
      cases L with
      | nil => rfl
      | cons a r => exact Option.noConfusion hchain.1
    subst hL
    have hcs : clearShard s idx fuel = s := by
      unfold clearShard
      rw [hh]
    rw [hcs]
    refine ⟨?_, rfl, by simp, by simp, by simp, fun j _ => rfl, rfl, rfl, rfl,
      rfl, rfl⟩
    intro i
    by_cases hi : i = idx
    · rw [if_pos hi, hi, hh]
    · rw [if_neg hi]
  · rw [hh] at hchain
    have hlt : idx < s.shards.length := getD_some_lt s.shards idx head hh
    obtain ⟨e1, e2, e3, e4, e5⟩ :=
      clearLoop_spec L fuel s.heap s.cleaned (some head) hchain hnodup hfuel
    have hLne : L ≠ [] := by
      intro hL
      rw [hL] at hchain
      exact Option.noConfusion hchain
    have hpos : 0 < (clearLoop fuel s.heap s.cleaned (some head)).2.2 := by
      rw [e2]
      cases L with
      | nil => exact absurd rfl hLne
      | cons a r => simp
    have hcs : clearShard s idx fuel
        = { s with
            shards := s.shards.set idx none
            heap := (clearLoop fuel s.heap s.cleaned (some head)).1
            cleaned := (clearLoop fuel s.heap s.cleaned (some head)).2.1
            currentLength := s.currentLength
              - ((clearLoop fuel s.heap s.cleaned (some head)).2.2 : Int) } := by
      unfold clearShard
      rw [hh]
      simp only [if_pos hpos]
    rw [hcs]
    refine ⟨?_, by simp, e1, by rw [e2], e3, e5, rfl, rfl, rfl, rfl, rfl⟩
    intro i
    by_cases hi : i = idx
    · rw [if_pos hi, hi]
      exact getD_set_self s.shards idx none hlt
    · rw [if_neg hi]
      exact getD_set_ne s.shards idx none i hi

/-- Draining a set of distinct shards in sequence: every listed head
becomes nil, the chains are appended to the cleaner log in shard order,
currentLength drops by the total count, all drained next fields are
cleared, and nothing else is touched. -/
theorem clear_fold_spec (fuel : Nat) :
    ∀ (idxs : List Nat) (s : PoolState) (Ls : Nat → List Nat),
      idxs.Nodup →
      (∀ i ∈ idxs, isChain s.heap (s.shards.getD i none) (Ls i)) →
      (∀ i ∈ idxs, (Ls i).Nodup) →
      (∀ i ∈ idxs, (Ls i).length ≤ fuel) →
      ((idxs.map Ls).flatten).Nodup →
      (∀ i ∈ idxs,
        (idxs.foldl (fun acc i2 => clearShard acc i2 fuel) s).shards.getD i none
          = none)
      ∧ (∀ i, i ∉ idxs →
          (idxs.foldl (fun acc i2 => clearShard acc i2 fuel) s).shards.getD i none
            = s.shards.getD i none)
      ∧ (idxs.foldl (fun acc i2 => clearShard acc i2 fuel) s).shards.length
          = s.shards.length
      ∧ (idxs.foldl (fun acc i2 => clearShard acc i2 fuel) s).cleaned
          = s.cleaned ++ (idxs.map Ls).flatten
      ∧ (idxs.foldl (fun acc i2 => clearShard acc i2 fuel) s).currentLength
          = s.currentLength - (((idxs.map Ls).flatten).length : Int)
      ∧ (∀ a ∈ (idxs.map Ls).flatten,
          (((idxs.foldl (fun acc i2 => clearShard acc i2 fuel) s)).heap a).next
            = none)
      ∧ (∀ j, j ∉ (idxs.map Ls).flatten →
          ((idxs.foldl (fun acc i2 => clearShard acc i2 fuel) s)).heap j
            = s.heap j)
      ∧ (idxs.foldl (fun acc i2 => clearShard acc i2 fuel) s).cfg = s.cfg
      ∧ (idxs.foldl (fun acc i2 => clearShard acc i2 fuel) s).stopClosed
          = s.stopClosed := by
  intro idxs
  induction idxs with
  | nil =>
    intro s Ls _ _ _ _ _
    exact ⟨by simp, fun i _ => rfl, rfl, by simp, by simp, by simp,
      fun j _ => rfl, rfl, rfl⟩
  | cons i rest ih =>
    intro s Ls hnd hch hLnd hfl hjnd
    have hirest : i ∉ rest := (List.nodup_cons.mp hnd).1
    have hrestnd : rest.Nodup := (List.nodup_cons.mp hnd).2
    have hjoin : ((i :: rest).map Ls).flatten = Ls i ++ (rest.map Ls).flatten := by
      simp
    rw [hjoin] at hjnd
    have hdisj : ∀ a ∈ (rest.map Ls).flatten, a ∉ Ls i := by
      intro a ha hai
      exact (List.disjoint_of_nodup_append hjnd) hai ha
    obtain ⟨c1, c2, c3, c4, c5, c6, c7, c8, c9, c10, c11⟩ :=
      clearShard_spec s i fuel (Ls i) (hch i (by simp)) (hLnd i (by simp))
        (hfl i (by simp))
    have hch2 : ∀ i2 ∈ rest,
        isChain (clearShard s i fuel).heap
          ((clearShard s i fuel).shards.getD i2 none) (Ls i2) := by
      intro i2 hi2
      have hne : i2 ≠ i := fun he => hirest (he ▸ hi2)
      rw [c1 i2, if_neg hne]
      refine isChain_congr s.heap (clearShard s i fuel).heap (Ls i2)
        (s.shards.getD i2 none) ?_ (hch i2 (by simp [hi2]))
      intro a ha
      rw [c6 a ?_]
      intro hai
      exact hdisj a (by
        simp only [List.mem_flatten]
        exact ⟨Ls i2, List.mem_map_of_mem Ls hi2, ha⟩) hai
    have ih2 := ih (clearShard s i fuel) Ls hrestnd hch2
      (fun i2 hi2 => hLnd i2 (by simp [hi2]))
      (fun i2 hi2 => hfl i2 (by simp [hi2]))
      ((List.nodup_append.mp hjnd).2.1)
    obtain ⟨d1, d2, d3, d4, d5, d6, d7, d8, d9⟩ := ih2
    simp only [List.foldl_cons]
    rw [hjoin]
    refine ⟨?_, ?_, ?_, ?_, ?_, ?_, ?_, ?_, ?_⟩
    · intro i2 hi2
      rcases List.mem_cons.mp hi2 with he | hr
      · rw [he]
        rw [d2 i hirest, c1 i, if_pos rfl]
      · exact d1 i2 hr
    · intro i2 hi2
      have h1 : i2 ∉ rest := fun hr => hi2 (by simp [hr])
      have h2 : i2 ≠ i := fun he => hi2 (by simp [he])
      rw [d2 i2 h1, c1 i2, if_neg h2]
    · rw [d3, c2]
    · rw [d4, c3]
      simp [List.append_assoc]
    · rw [d5, c4]
      simp only [List.length_append]
      push_cast
      ring
    · intro a ha
      rcases List.mem_append.mp ha with hai | har
      · by_cases haj : a ∈ (rest.map Ls).flatten
        · exact d6 a haj
        · rw [d7 a haj]
          exact c5 a hai
      · exact d6 a har
    · intro j hj
      have h1 : j ∉ (rest.map Ls).flatten := fun hr => hj (by simp [hr])
      have h2 : j ∉ Ls i := fun he => hj (by
        simp only [List.mem_append]
        exact Or.inl he)
      rw [d7 j h1]
      exact c6 j h2
    · rw [d8, c7]
    · rw [d9, c8]

/-- C5 amended.  ONLY for pools whose cleanup policy is ENABLED (and not
yet closed), Close drains every shard: it succeeds, every shard head is
nil afterwards, the user cleaner has been invoked exactly once more on
each object that was resident on some shard at drain time (Ls i lists
shard i's chain), and currentLength has been decremented by the total
number of drained objects.  (With cleanup disabled, Close is a no-op —
see the C5 counterexample.) -/
theorem close_drains_when_cleanup_enabled (s : PoolState) (fuel : Nat)
    (Ls : Nat → List Nat)
    (hen : s.cfg.cleanup.enabled = true) (hst : s.stopClosed = false)
    (hch : ∀ i < s.shards.length, isChain s.heap (s.shards.getD i none) (Ls i))
    (hnd : ∀ i < s.shards.length, (Ls i).Nodup)
    (hfl : ∀ i < s.shards.length, (Ls i).length ≤ fuel)
    (hjnd : (((List.range s.shards.length).map Ls).flatten).Nodup) :
    ∃ s2, Close s fuel = some s2
      ∧ (∀ i, s2.shards.getD i none = none)
      ∧ s2.cleaned = s.cleaned ++ ((List.range s.shards.length).map Ls).flatten
      ∧ (∀ a ∈ ((List.range s.shards.length).map Ls).flatten,
          s2.cleaned.count a = s.cleaned.count a + 1)
      ∧ s2.currentLength = s.currentLength
          - ((((List.range s.shards.length).map Ls).flatten).length : Int) := by
  refine ⟨clear { s with stopClosed := true } fuel, ?_, ?_⟩
  · unfold Close
    simp [hen, hst]
  obtain ⟨d1, d2, d3, d4, d5, d6, d7, d8, d9⟩ :=
    clear_fold_spec fuel (List.range s.shards.length)
      { s with stopClosed := true } Ls
      (List.nodup_range _)
      (fun i hi => hch i (by simpa using hi))
      (fun i hi => hnd i (by simpa using hi))
      (fun i hi => hfl i (by simpa using hi))
      hjnd
  have hclear : clear { s with stopClosed := true } fuel
      = (List.range s.shards.length).foldl
          (fun acc i2 => clearShard acc i2 fuel) { s with stopClosed := true } := by
    unfold clear
    rfl
  rw [hclear]
  refine ⟨?_, d4, ?_, d5⟩
  · intro i
    by_cases hi : i < s.shards.length
    · exact d1 i (by simpa using hi)
    · rw [d2 i (by simpa using hi)]
      show s.shards.getD i none = none
      rw [List.getD_eq_getElem?_getD, List.getElem?_eq_none (by omega)]
      rfl
  · intro a ha
    rw [d4]
    show (s.cleaned ++ _).count a = _
    rw [List.count_append,
      List.count_eq_one_of_mem hjnd ha]

/-- The C5 witness pool: cleanup enabled, one shard holding object 0. -/
theorem close_drains_when_cleanup_enabled_witness :
    (Put 1 0 0 (Get 1 0 (initPool cfgClean 1)).2).cfg.cleanup.enabled = true
    ∧ (Put 1 0 0 (Get 1 0 (initPool cfgClean 1)).2).stopClosed = false
    ∧ (∀ i < (Put 1 0 0 (Get 1 0 (initPool cfgClean 1)).2).shards.length,
        isChain (Put 1 0 0 (Get 1 0 (initPool cfgClean 1)).2).heap
          ((Put 1 0 0 (Get 1 0 (initPool cfgClean 1)).2).shards.getD i none) [0])
    ∧ (∃ s2, Close (Put 1 0 0 (Get 1 0 (initPool cfgClean 1)).2) 5 = some s2
        ∧ (∀ i, s2.shards.getD i none = none)
        ∧ s2.cleaned = (Put 1 0 0 (Get 1 0 (initPool cfgClean 1)).2).cleaned
            ++ ((List.range (Put 1 0 0 (Get 1 0 (initPool cfgClean 1)).2).shards.length).map
                  (fun _ => ([0] : List Nat))).flatten
        ∧ (∀ a ∈ ((List.range (Put 1 0 0 (Get 1 0 (initPool cfgClean 1)).2).shards.length).map
              (fun _ => ([0] : List Nat))).flatten,
            s2.cleaned.count a
              = (Put 1 0 0 (Get 1 0 (initPool cfgClean 1)).2).cleaned.count a + 1)
        ∧ s2.currentLength = (Put 1 0 0 (Get 1 0 (initPool cfgClean 1)).2).currentLength
            - ((((List.range (Put 1 0 0 (Get 1 0 (initPool cfgClean 1)).2).shards.length).map
                  (fun _ => ([0] : List Nat))).flatten).length : Int)) := by
  have hch : ∀ i < (Put 1 0 0 (Get 1 0 (initPool cfgClean 1)).2).shards.length,
      isChain (Put 1 0 0 (Get 1 0 (initPool cfgClean 1)).2).heap
        ((Put 1 0 0 (Get 1 0 (initPool cfgClean 1)).2).shards.getD i none) [0] := by
    intro i hi
    have hi0 : i = 0 := by
      have hlen : (Put 1 0 0 (Get 1 0 (initPool cfgClean 1)).2).shards.length = 1 :=
        rfl
      omega
    rw [hi0]
    exact ⟨rfl, rfl⟩
  refine ⟨rfl, rfl, hch, ?_⟩
  exact close_drains_when_cleanup_enabled
    (Put 1 0 0 (Get 1 0 (initPool cfgClean 1)).2) 5 (fun _ => [0])
    rfl rfl hch
    (fun i _ => by simp)
    (fun i _ => by simp)
    (by decide)

end GenPool
